import Mathlib

/-!
Verification of the `browser-docx-merger` merge engine (src/unnamed/part_006,
the repository's `src/index.ts`).

The development shallowly embeds the merge engine:

* XML bodies are modelled as flat lists of top-level body children (`Elem`):
  a paragraph carries the list of its text-run contents and, where relevant,
  identifier attributes; `w:sectPr` carries its (otherwise uninterpreted)
  content.  Real WordprocessingML main bodies are sequences of block-level
  children, and the merge engine only ever inserts, removes or appends
  top-level children, so the flat model captures everything the body-splicing
  code does.  `getElementsByTagNameNS` descendant searches coincide with
  child searches on such flat bodies.
* JSZip packages are association lists from part path to (opaque) content,
  with `file(path, data)` modelled as cons-to-front and `file(path)` as
  first-match lookup, which matches the overwrite semantics of JSZip.
* JS `Map` objects are association lists with cons-to-front `set` and
  first-match `get`, matching `Map.set`/`Map.get` observably.
* JS string truthiness (`''` and `null`/`undefined` are falsy) is modelled
  explicitly where the source relies on it.
* Asynchronicity is irrelevant to the claims (single logical writer, strict
  array-order processing), so all operations are pure state-passing
  functions; a merge that throws is modelled with `Except`.
-/

/-! ## Generic string helpers (JS `includes`, `startsWith`, number rendering) -/

/-- Decides whether `needle` occurs at the head of `hay` (char-list version of
a JS string prefix test). -/
def isPrefixChars : List Char → List Char → Bool
  | [], _ => true
  | _ :: _, [] => false
  | a :: as, b :: bs => a == b && isPrefixChars as bs

/-- Decides whether `needle` occurs as a contiguous substring of `hay`;
this is JS `hay.includes(needle)` on char lists. -/
def containsChars : List Char → List Char → Bool
  | [], needle => needle.isEmpty
  | h :: t, needle => isPrefixChars needle (h :: t) || containsChars t needle

/-- JS `t.includes(pat)`. -/
def includesStr (t pat : String) : Bool :=
  containsChars t.toList pat.toList

/-- The decimal digit character for `n < 10`. -/
def digitChar : Nat → Char
  | 0 => '0'
  | 1 => '1'
  | 2 => '2'
  | 3 => '3'
  | 4 => '4'
  | 5 => '5'
  | 6 => '6'
  | 7 => '7'
  | 8 => '8'
  | 9 => '9'
  | _ => '?'

/-- Fuel-indexed decimal rendering of a natural number (most significant
digit first); fuel `n+1` always suffices for `n`. -/
def natDecimalGo : Nat → Nat → List Char
  | 0, _ => []
  | fuel + 1, n =>
    if n < 10 then [digitChar n]
    else natDecimalGo fuel (n / 10) ++ [digitChar (n % 10)]

/-- Decimal rendering of a natural number, as JS number-to-string produces. -/
def natDecimal (n : Nat) : List Char :=
  natDecimalGo (n + 1) n

/-- Decimal rendering as a `String`. -/
def natToStr (n : Nat) : String :=
  String.mk (natDecimal n)

/-! ## Model A: body nodes, options, and the merge orchestrator

Embeds `mergeDocx`, `appendDocInto`, `insertDocBefore`, `importBodyNodes`
(body-structure aspects), `lastSectPr`, `makePageBreak`,
`findParagraphsContainingText` and `withDefaults` from src/unnamed/part_006.
Identifier rewriting inside imported nodes (relationships, numbering, notes)
changes only attributes, never the number or order of imported top-level
children, so it is modelled separately (Models B-E below) and omitted from
the body-structure model. -/

/-- A top-level body child: a paragraph with its run texts, a trailing
section-properties element with its (uninterpreted) content, or any other
block element identified by its tag. -/
inductive Elem
  | para (texts : List String)
  | sectPrE (props : String)
  | otherE (tag : String)
deriving DecidableEq, Repr

/-- The result of `makePageBreak`: a fresh paragraph containing a single
page-break run (it has no `w:t` descendants, so its concatenated run text is
empty). -/
def makePageBreak : Elem :=
  Elem.para []

/-- Whether an element is a `w:sectPr`. -/
def isSectPr : Elem → Bool
  | Elem.sectPrE _ => true
  | _ => false

/-- A document, reduced to its body's top-level children. -/
structure MDoc where
  body : List Elem
deriving Repr

/-- Merge options after `withDefaults`: `pattern` is `null` or a string,
the rest are booleans (`onLog` is advisory only and never affects control
flow, so it is omitted here; Model E tracks log emission where a claim
mentions it). -/
structure Opts where
  pattern : Option String
  insertStart : Bool
  insertEnd : Bool
  pageBreaks : Bool
deriving Repr

/-- JS truthiness of the `pattern` option (`if(opt.pattern)`): `null` and
the empty string are falsy. -/
def patActive : Option String → Bool
  | none => false
  | some s => !(s == "")

/-- `lastSectPr` + `removeChild`: detaches the last `w:sectPr` child of the
body (the last one in document order), returning the remaining body and the
detached element, or `none` if the body has no `w:sectPr`. -/
def detachLastSectPr : List Elem → List Elem × Option Elem
  | [] => ([], none)
  | e :: rest =>
    match detachLastSectPr rest with
    | (r1, some s) => (e :: r1, some s)
    | (r1, none) => if isSectPr e then (rest, some e) else (e :: r1, none)

/-- The concatenated text of all `w:t` runs of a paragraph, and whether the
paragraph's text contains `text` (loop body of
`findParagraphsContainingText`). -/
def paraContains (e : Elem) (text : String) : Bool :=
  match e with
  | Elem.para texts => includesStr (String.join texts) text
  | _ => false

/-- Scan of `findParagraphsContainingText`, collecting match positions from
offset `i`. -/
def findParasGo : List Elem → String → Nat → List Nat
  | [], _, _ => []
  | e :: t, text, i =>
    if paraContains e text then i :: findParasGo t text (i + 1)
    else findParasGo t text (i + 1)

/-- `findParagraphsContainingText`, returning the positions (in body order)
of the matching paragraphs; the DOM code returns the elements themselves and
uses the first one as anchor, which in the list model is the element at the
first returned position. -/
def findParagraphsContainingText (body : List Elem) (text : String) : List Nat :=
  findParasGo body text 0

/-- `importBodyNodes`, body-structure part: take the source body's element
children and drop its trailing `w:sectPr` (identifier rewrites on the
imported nodes do not change the child list). -/
def importBodyNodes (src : MDoc) : List Elem :=
  (detachLastSectPr src.body).1

/-- `appendDocInto`: appends the imported nodes of one source to the end of
the base body, preceded by a page-break paragraph when `pageBreaks` is set
and the body is nonempty.  The source function also receives an `atEnd`
flag, which its body never reads; the unused parameter is kept to mirror the
source. -/
def appendDocInto (body : List Elem) (src : MDoc) (pageBreaks : Bool) (atEnd : Bool) : List Elem :=
  let _ := atEnd
  let body1 := if pageBreaks && !body.isEmpty then body ++ [makePageBreak] else body
  body1 ++ importBodyNodes src

/-- `insertDocBefore`: inserts each imported node of one source immediately
before the anchor paragraph.  In the list model the anchor is a position;
inserting the nodes one by one before the anchor places the whole block at
the anchor's position and shifts the anchor right by the block's length. -/
def insertDocBefore (body : List Elem) (anchorIdx : Nat) (src : MDoc) : List Elem × Nat :=
  let nodes := importBodyNodes src
  (body.take anchorIdx ++ nodes ++ body.drop anchorIdx, anchorIdx + nodes.length)

/-- The `if(opt.pattern){...}` block of `mergeDocx`: scan the current body
for the first paragraph containing the pattern; if none matches, only a
warning is logged and nothing is inserted (contributing 0 to
`totalReplacements`); otherwise every source is inserted, in array order,
immediately before that anchor (contributing 1). -/
def patternStep (body : List Elem) (srcs : List MDoc) (opt : Opts) : List Elem × Nat :=
  if patActive opt.pattern then
    let p := opt.pattern.getD ""
    match findParagraphsContainingText body p with
    | [] => (body, 0)
    | i :: _ =>
      ((srcs.foldl (fun st s => insertDocBefore st.1 st.2 s) (body, i)).1, 1)
  else (body, 0)

/-- Merge failure kinds (`throw new Error(...)` sites of `mergeDocx`). -/
inductive MergeError
  | insufficientSources
  | noInsertionMode
  | noInsertionPerformed
deriving DecidableEq, Repr

/-- The post-validation body of `mergeDocx`: detaching the base trailing
`w:sectPr`, the insertStart / pattern / insertEnd phases in that fixed
order, the `totalReplacements === 0` check, and re-appending the detached
`w:sectPr` as the last body child. -/
def mergeBody (base : MDoc) (srcs : List MDoc) (opt : Opts) : Except MergeError (List Elem) :=
  let det := detachLastSectPr base.body
  let total0 := (if opt.insertStart then 1 else 0) + (if opt.insertEnd then 1 else 0)
  let body2 :=
    if opt.insertStart then
      srcs.foldl (fun b s => appendDocInto b s opt.pageBreaks false) det.1
    else det.1
  let pat := patternStep body2 srcs opt
  let body4 :=
    if opt.insertEnd then
      srcs.foldl (fun b s => appendDocInto b s opt.pageBreaks true) pat.1
    else pat.1
  if total0 + pat.2 = 0 then Except.error MergeError.noInsertionPerformed
  else Except.ok (body4 ++ det.2.toList)

/-- `mergeDocx` on the body level: input validation followed by the merge
phases (`mergeBody`).  The returned list is the body of `word/document.xml`
in the produced package; an `Except.error` is thrown before any package
bytes are produced. -/
def mergeDocx (docs : List MDoc) (opt : Opts) : Except MergeError (List Elem) :=
  if docs.length < 2 then Except.error MergeError.insufficientSources
  else if !patActive opt.pattern && !opt.insertStart && !opt.insertEnd then
    Except.error MergeError.noInsertionMode
  else
    match docs with
    | [] => Except.error MergeError.insufficientSources
    | base :: srcs => mergeBody base srcs opt

/-! ## Model B: numbering merge (`mergeNumberingParts`, `remapNumberingInBody`)

JS `Map` objects are modelled as association lists (`mset` conses to the
front, `mget` takes the first match, which observably matches
`Map.set`/`Map.get`).  Identifier attributes are parsed to integers by the
source (`+(attr || '0')`); the model works on the parsed integers. -/

/-- Association-list model of a JS `Map<number, number>`. -/
abbrev IntMap := List (Int × Int)

/-- `Map.set`. -/
def mset (m : IntMap) (k v : Int) : IntMap :=
  (k, v) :: m

/-- `Map.get` (`none` when the key is absent, i.e. `Map.has` is false). -/
def mget (m : IntMap) (k : Int) : Option Int :=
  (m.find? (fun e => e.1 == k)).map (·.2)

/-- JS `Math.max(0, ...xs)`. -/
def jsMax0 (l : List Int) : Int :=
  l.foldl max 0

/-- A `w:abstractNum` entry: its `w:abstractNumId` and its (uninterpreted)
level formatting. -/
structure AbstractNum where
  absId : Int
  content : String
deriving DecidableEq, Repr

/-- A `w:num` entry: its `w:numId` and the `w:val` of its `w:abstractNumId`
child (`none` when that child element is absent). -/
structure NumInstance where
  numId : Int
  absRef : Option Int
deriving DecidableEq, Repr

/-- A `word/numbering.xml` part: abstract definitions and concrete
instances, in document order. -/
structure Numbering where
  abstracts : List AbstractNum
  instances : List NumInstance
deriving DecidableEq, Repr

/-- The abstract IDs present in a numbering part. -/
def absIds (n : Numbering) : List Int :=
  n.abstracts.map (·.absId)

/-- The instance IDs present in a numbering part. -/
def numIds (n : Numbering) : List Int :=
  n.instances.map (·.numId)

/-- The `abstractNum` loop of `mergeNumberingParts`: each source abstract
definition gets the next fresh ID (`++_absMax`), the old→new pair is
recorded, and the renumbered definition is appended. -/
def mergeAbstractsGo : List AbstractNum → Int → IntMap → List AbstractNum → Int × IntMap × List AbstractNum
  | [], absMax, m, acc => (absMax, m, acc)
  | a :: t, absMax, m, acc =>
    mergeAbstractsGo t (absMax + 1) (mset m a.absId (absMax + 1))
      (acc ++ [{ absId := absMax + 1, content := a.content }])

/-- The `num` loop of `mergeNumberingParts`: each source instance gets the
next fresh ID (`++_numMax`), the old→new pair is recorded, and the
instance's embedded abstract reference is rewritten through the abstract-ID
map (falling back to the old value when unmapped, `?? oldAbs`). -/
def mergeInstancesGo : List NumInstance → Int → IntMap → IntMap → List NumInstance → Int × IntMap × List NumInstance
  | [], numMax, m, _, acc => (numMax, m, acc)
  | i :: t, numMax, m, absIdMap, acc =>
    let newAbs : Option Int :=
      match i.absRef with
      | some oldAbs => some ((mget absIdMap oldAbs).getD oldAbs)
      | none => none
    mergeInstancesGo t (numMax + 1) (mset m i.numId (numMax + 1)) absIdMap
      (acc ++ [{ numId := numMax + 1, absRef := newAbs }])

/-- `mergeNumberingParts`: seeds the two counters from the maxima of the
base part's IDs (`Math.max(0, ...)`), renumbers and appends every source
abstract definition and instance, and returns the merged part together with
the instance-ID and abstract-ID remap tables. -/
def mergeNumberingParts (baseN srcN : Numbering) : Numbering × IntMap × IntMap :=
  let absMax0 := jsMax0 (absIds baseN)
  let numMax0 := jsMax0 (numIds baseN)
  let ra := mergeAbstractsGo srcN.abstracts absMax0 [] []
  let absIdMap := ra.2.1
  let ri := mergeInstancesGo srcN.instances numMax0 [] absIdMap []
  let numIdMap := ri.2.1
  ({ abstracts := baseN.abstracts ++ ra.2.2,
     instances := baseN.instances ++ ri.2.2 }, numIdMap, absIdMap)

/-- `remapNumberingInBody`: a body is reduced to the `w:numId` values of its
paragraphs (`none` when the paragraph has no `w:numPr`/`w:numId`); a value
is rewritten only when the map has it (`numIdMap.has(v)`). -/
def remapNumberingInBody (body : List (Option Int)) (numIdMap : IntMap) : List (Option Int) :=
  body.map fun o =>
    match o with
    | some v => some ((mget numIdMap v).getD v)
    | none => none

/-- One source step of the numbering pipeline, as performed by
`importBodyNodes` for each source in array order: merge the source's
numbering part into the running base part, then remap the source body's
`numId` references through the returned instance-ID map. -/
def mergeStepNumbering (st : Numbering × List (List (Option Int)))
    (src : Numbering × List (Option Int)) : Numbering × List (List (Option Int)) :=
  let r := mergeNumberingParts st.1 src.1
  (r.1, st.2 ++ [remapNumberingInBody src.2 r.2.1])

/-- The whole numbering pipeline of one merge call with numbering merge
enabled: fold the per-source step over the sources in array order, starting
from the base numbering part; returns the final merged part and the
remapped body of each source. -/
def mergeAllNumbering (baseN : Numbering) (srcs : List (Numbering × List (Option Int))) :
    Numbering × List (List (Option Int)) :=
  srcs.foldl mergeStepNumbering (baseN, [])

/-- Internal consistency of a numbering part: every instance's abstract
reference resolves to an abstract definition present in the same part. -/
def tableConsistent (n : Numbering) : Prop :=
  ∀ inst ∈ n.instances, ∀ a, inst.absRef = some a → a ∈ absIds n

/-- Consistency of a body against a numbering part: every referenced
instance ID is present in the part. -/
def bodyConsistent (n : Numbering) (body : List (Option Int)) : Prop :=
  ∀ v : Int, some v ∈ body → v ∈ numIds n

/-! ## Model C: styles merge (`mergeStylesPart`, main `styles.xml` table) -/

/-- A `w:style` entry: the result of the `w:styleId` attribute-lookup chain
(`none` when no attribute produced a value) and the (uninterpreted)
formatting content. -/
structure Style where
  styleId : Option String
  content : String
deriving DecidableEq, Repr

/-- JS truthiness of an attribute-lookup result: `null` and `''` are
falsy. -/
def idTruthy : Option String → Bool
  | none => false
  | some s => !(s == "")

/-- The source-styles loop of `mergeStylesPart`: a source style is appended
only when its ID is truthy and not already in the `existing` set, and its ID
is then added to the set. -/
def mergeStylesGo : List Style → List (Option String) → List Style → List Style
  | [], _, acc => acc
  | s :: t, existing, acc =>
    if (idTruthy s.styleId && !(existing.contains s.styleId)) = true then
      mergeStylesGo t (existing ++ [s.styleId]) (acc ++ [s])
    else
      mergeStylesGo t existing acc

/-- `mergeStylesPart` (main `styles.xml` table): the `existing` set is
seeded with every base style's ID-lookup result, and source styles are
appended first-writer-wins. -/
def mergeStylesPart (baseStyles srcStyles : List Style) : List Style :=
  mergeStylesGo srcStyles (baseStyles.map (·.styleId)) baseStyles

/-- The truthy style IDs of a styles table, in order. -/
def truthyIds (l : List Style) : List String :=
  l.filterMap fun s =>
    match s.styleId with
    | some id => if id == "" then none else some id
    | none => none

/-! ## Model D: footnote/endnote merge (`mergeNotes`, note-ID allocation) -/

/-- A `w:footnote`/`w:endnote` entry: its numeric `w:id` and its
(uninterpreted) content. -/
structure Note where
  noteId : Int
  content : String
deriving DecidableEq, Repr

/-- The source-notes loop of `mergeNotes`: a negative ID maps to itself and
the note is not copied; a non-negative ID gets the next counter value
(`++maxId`), the old→new pair is recorded, and the renumbered note is
appended. -/
def mergeNotesGo : List Note → Int → IntMap → List Note → Int × IntMap × List Note
  | [], maxId, m, acc => (maxId, m, acc)
  | n :: t, maxId, m, acc =>
    if n.noteId < 0 then
      mergeNotesGo t maxId (mset m n.noteId n.noteId) acc
    else
      mergeNotesGo t (maxId + 1) (mset m n.noteId (maxId + 1))
        (acc ++ [{ noteId := maxId + 1, content := n.content }])

/-- The note-ID allocator seed of `mergeNotes`:
`Math.max(0, ...baseIds.filter(n => n >= 0))`. -/
def noteSeed (baseNotes : List Note) : Int :=
  jsMax0 ((baseNotes.map (·.noteId)).filter (fun n => decide (0 ≤ n)))

/-- `mergeNotes` (note-copy part, per note kind): seed the counter from the
maximum non-negative base ID, process every source note, and append the
copied notes to the base list; returns the merged note list and the
old→new ID map. -/
def mergeNotes (baseNotes srcNotes : List Note) : List Note × IntMap :=
  let r := mergeNotesGo srcNotes (noteSeed baseNotes) [] []
  (baseNotes ++ r.2.2, r.2.1)

/-- Sequential renumbering of a note list starting above `s` — the closed
form of what the `mergeNotes` counter produces. -/
def renumberFrom : Int → List Note → List Note
  | _, [] => []
  | s, n :: t => { noteId := s + 1, content := n.content } :: renumberFrom (s + 1) t

/-! ## Model E: relationships, packages, paths, and `remapRelationship`

Embeds `remapRelationship`, `findRelationshipById`,
`findRelationshipByTypeAndTarget`, `addRelationship`, `makeRidAllocator`,
`makeContentTypesEnsurer`, the path helpers (`normalizePath`,
`canonicalizeMediaPath`, `splitNameExt`, `uniqueMediaName`,
`uniquePartPath`, `relativeTo`), and the reference-attribute rewrite loop of
`importBodyNodes`. -/

/-- Index of the last occurrence of a character (JS `lastIndexOf`, as an
`Option`). -/
def lastIdxOf : List Char → Char → Option Nat
  | [], _ => none
  | h :: t, c =>
    match lastIdxOf t c with
    | some i => some (i + 1)
    | none => if h == c then some 0 else none

/-- Index of the first occurrence of `needle` as a substring (JS
`indexOf`, as an `Option`). -/
def idxOfSub : List Char → List Char → Option Nat
  | [], needle => if needle.isEmpty then some 0 else none
  | h :: t, needle =>
    if isPrefixChars needle (h :: t) then some 0
    else (idxOfSub t needle).map (· + 1)

/-- JS `split('/')` on a character list. -/
def splitOnSlash : List Char → List (List Char)
  | [] => [[]]
  | c :: t =>
    let r := splitOnSlash t
    if c == '/' then [] :: r
    else (c :: r.headD []) :: r.tail

/-- Joins path segments with `/` (inverse of `splitOnSlash` on
slash-free segments). -/
def joinSlash : List (List Char) → List Char
  | [] => []
  | [x] => x
  | x :: y :: t => x ++ '/' :: joinSlash (y :: t)

/-- JS `s.endsWith(suffix)`. -/
def strEndsWith (s suffix : String) : Bool :=
  isPrefixChars suffix.toList.reverse s.toList.reverse

/-- JS `s.startsWith(prefixStr)`. -/
def strStartsWith (s p : String) : Bool :=
  isPrefixChars p.toList s.toList

/-- `base.substring(0, base.lastIndexOf('/') + 1)`: the directory part of a
path, including the trailing slash; empty when the path has no slash. -/
def dirOf (s : String) : String :=
  match lastIdxOf s.toList '/' with
  | some i => String.mk (s.toList.take (i + 1))
  | none => ""

/-- `normalizePath`: resolve `target` against the directory of `base`,
processing `..` (pop), `.` and empty segments (skip). -/
def normalizePath (base target : String) : String :=
  let segs := splitOnSlash (dirOf base ++ target).toList
  let out := segs.foldl
    (fun (acc : List (List Char)) seg =>
      if seg == ['.', '.'] then acc.dropLast
      else if seg == ['.'] || seg.isEmpty then acc
      else acc ++ [seg]) []
  String.mk (joinSlash out)

/-- `canonicalizeMediaPath`: normalise a media part path to the
`word/media/` folder layout when possible. -/
def canonicalizeMediaPath (p : String) : String :=
  if strStartsWith p "word/media/" then p
  else
    match idxOfSub p.toList ("word/".toList) with
    | some idx =>
      let rest := String.mk (p.toList.drop (idx + 5))
      if strStartsWith rest "media/" then "word/" ++ rest else p
    | none => p

/-- `splitNameExt`: split a path at the last dot into name and lowercased
extension (empty extension when there is no dot). -/
def splitNameExt (path : String) : String × String :=
  match lastIdxOf path.toList '.' with
  | some i =>
    (String.mk (path.toList.take i), String.mk ((path.toList.drop (i + 1)).map Char.toLower))
  | none => (path, "")

/-- The character sanitiser of `uniqueMediaName`
(`replace(/[^A-Za-z0-9_\-]/g, '_')`). -/
def sanitizeMediaChar (c : Char) : Char :=
  if (decide ('A' ≤ c) && decide (c ≤ 'Z')) || (decide ('a' ≤ c) && decide (c ≤ 'z'))
      || (decide ('0' ≤ c) && decide (c ≤ '9')) || c == '_' || c == '-' then c
  else '_'

/-- The portion of a path after its last slash. -/
def afterLastSlash (l : List Char) : List Char :=
  match lastIdxOf l '/' with
  | some i => l.drop (i + 1)
  | none => l

/-- A JSZip package: an association list from part path to (opaque)
content; `file(path, data)` conses to the front and `file(path)` takes the
first match, matching JSZip's overwrite semantics. -/
structure Zip where
  files : List (String × String)
deriving DecidableEq, Repr

/-- `zip.file(path)` (read). -/
def zfile (z : Zip) (p : String) : Option String :=
  (z.files.find? (fun f => f.1 == p)).map (·.2)

/-- `zip.file(path, data)` (write). -/
def zset (z : Zip) (p data : String) : Zip :=
  { files := (p, data) :: z.files }

/-- The smallest index `i ≥ 1` whose candidate path is free in the package:
the value the `do/while(zip.file(cand))` loops of `uniqueMediaName` and
`uniquePartPath` terminate at.  The loop always terminates because the
candidates are pairwise distinct and the package holds finitely many parts,
so the search is bounded by one more than the part count (the fallback is
unreachable). -/
def firstFreeIdx (z : Zip) (cand : Nat → String) : Nat :=
  match (List.range (z.files.length + 1)).find? (fun i => (zfile z (cand (i + 1))).isNone) with
  | some i => i + 1
  | none => z.files.length + 2

/-- `uniqueMediaName`: a collision-free destination inside `word/media/`. -/
def uniqueMediaName (z : Zip) (baseName ext : String) : String :=
  let base := String.mk ((afterLastSlash baseName.toList).map sanitizeMediaChar)
  let cand := fun (i : Nat) => "word/media/merged_" ++ base ++ "_" ++ natToStr i ++ "." ++ ext
  cand (firstFreeIdx z cand)

/-- `uniquePartPath`: a collision-free sibling path with `_merged_<n>`
spliced in before the extension. -/
def uniquePartPath (z : Zip) (srcFull : String) : String :=
  let se :=
    match lastIdxOf srcFull.toList '.' with
    | some i => (String.mk (srcFull.toList.take i), String.mk (srcFull.toList.drop i))
    | none => (srcFull, "")
  let cand := fun (i : Nat) => se.1 ++ "_merged_" ++ natToStr i ++ se.2
  cand (firstFreeIdx z cand)

/-- `relativeTo`: strip `from`'s directory off `to` when it is a prefix. -/
def relativeTo (fromP toP : String) : String :=
  let fromDir := dirOf fromP
  if strStartsWith toP fromDir then String.mk (toP.toList.drop fromDir.toList.length) else toP

/-- A `Relationship` entry: `Id`, `Type`, `Target`, and `TargetMode`
(`none` when the attribute is absent). -/
structure RelEntry where
  relId : String
  relType : String
  target : String
  targetMode : Option String
deriving DecidableEq, Repr

/-- A relationship set (the `Relationship` children of one `.rels` part, in
document order). -/
abbrev RelSet := List RelEntry

/-- JS `(x || '')` on an attribute-lookup result. -/
def modeNorm : Option String → String
  | none => ""
  | some s => s

/-- JS `(x || undefined)` on an attribute-lookup result: collapse `''` to
absent. -/
def optTruthy : Option String → Option String
  | none => none
  | some s => if s == "" then none else some s

/-- `findRelationshipById`: first entry whose `Id` matches. -/
def findRelationshipById (rels : RelSet) (id : String) : Option RelEntry :=
  rels.find? (fun r => r.relId == id)

/-- `findRelationshipByTypeAndTarget`: first entry matching the
(type, target, targetMode) triple, with absent mode compared as `''`. -/
def findRelationshipByTypeAndTarget (rels : RelSet) (type target : String)
    (mode : Option String) : Option RelEntry :=
  rels.find? (fun r =>
    r.relType == type && r.target == target && modeNorm r.targetMode == modeNorm mode)

/-- `addRelationship`: append a fresh `Relationship` entry; `TargetMode` is
set only when truthy. -/
def addRelationship (rels : RelSet) (id type target : String) (mode : Option String) : RelSet :=
  rels ++ [{ relId := id, relType := type, target := target, targetMode := optTruthy mode }]

/-- Numeric value of a digit character. -/
def digitVal (c : Char) : Nat :=
  c.toNat - 48

/-- Value of a digit run, most significant digit first. -/
def digitsVal (l : List Char) : Nat :=
  l.foldl (fun a c => a * 10 + digitVal c) 0

/-- First match of the regular expression `rId(\d+)` over a character list:
the leftmost occurrence of `rId` followed by at least one digit, with the
maximal digit run captured (positions without a full match are skipped one
character at a time, as the regex engine does). -/
def firstRidNum : List Char → Option Nat
  | [] => none
  | c :: t =>
    if (c == 'r' && isPrefixChars ['I', 'd'] t) = true then
      if ((t.drop 2).takeWhile Char.isDigit).isEmpty then firstRidNum t
      else some (digitsVal ((t.drop 2).takeWhile Char.isDigit))
    else firstRidNum t

/-- The numeric suffix of a relationship ID of the form `rId<N>`
(`/rId(\d+)/.exec(id)`). -/
def ridSuffix (id : String) : Option Nat :=
  firstRidNum id.toList

/-- The scan inside `makeRidAllocator`'s closure: the maximum numeric
suffix over all entries of the set (0 when none parses). -/
def ridMax (rels : RelSet) : Nat :=
  rels.foldl
    (fun m r =>
      match ridSuffix r.relId with
      | some n => max m n
      | none => m) 0

/-- One call of the allocator returned by `makeRidAllocator`: recompute the
live maximum and return `'rId' + (max + 1)` (the string is built directly
from its characters; it equals `"rId" ++ natToStr (ridMax rels + 1)`). -/
def allocRid (rels : RelSet) : String :=
  String.mk ('r' :: 'I' :: 'd' :: natDecimal (ridMax rels + 1))

/-- The extension → content-type table of `makeContentTypesEnsurer`. -/
def ctMap (ext : String) : String :=
  if ext == "bmp" then "image/bmp"
  else if ext == "gif" then "image/gif"
  else if ext == "jpg" then "image/jpeg"
  else if ext == "jpeg" then "image/jpeg"
  else if ext == "png" then "image/png"
  else if ext == "tif" then "image/tiff"
  else if ext == "tiff" then "image/tiff"
  else if ext == "emf" then "image/x-emf"
  else if ext == "wmf" then "image/x-wmf"
  else "application/octet-stream"

/-- Lowercase a string (ASCII, as the compared values are). -/
def strLower (s : String) : String :=
  String.mk (s.toList.map Char.toLower)

/-- `makeContentTypesEnsurer`'s `ensure`: add a `Default` entry for the
extension unless one already exists (case-insensitively). -/
def ensureCT (defaults : List (String × String)) (ext : String) : List (String × String) :=
  if defaults.any (fun d => strLower d.1 == strLower ext) then defaults
  else defaults ++ [(ext, ctMap ext)]

/-- The part path of the main document (`P.document`). -/
def docPartPath : String :=
  "word/document.xml"

/-- The base-package state threaded through `remapRelationship`: the base
relationship set (`baseRels`), the base package (`baseZip`), the
content-type `Default` entries (`ct`), and the messages emitted through the
logging callback (`logs`). -/
structure RRState where
  baseRels : RelSet
  baseZip : Zip
  ct : List (String × String)
  logs : List String
deriving DecidableEq, Repr

/-- `remapRelationship`: resolve a source-local relationship ID into the
base package.  Returns the new local ID (`none` when the reference cannot
be resolved) together with the updated base-package state.  The source's
`nextRid` parameter is the allocator over the current base relationship
set and `ensureCT` the content-type ensurer over the current table; both
are applied to the threaded state here. -/
def remapRelationship (oldRid : String) (srcRels : RelSet) (srcZip : Zip) (st : RRState) :
    Option String × RRState :=
  if oldRid == "" then (none, st)
  else
    match findRelationshipById srcRels oldRid with
    | none => (none, st)
    | some srcRel =>
      let type := srcRel.relType
      let target := srcRel.target
      let mode := optTruthy srcRel.targetMode
      match findRelationshipByTypeAndTarget st.baseRels type target mode with
      | some existing => (some existing.relId, st)
      | none =>
        let newId := allocRid st.baseRels
        if strEndsWith type "/hyperlink" then
          let modeH : Option String :=
            match mode with
            | some m => some m
            | none => some "External"
          (some newId,
           { st with baseRels := addRelationship st.baseRels newId type target modeH })
        else if strEndsWith type "/image" then
          let srcPath := normalizePath docPartPath target
          let srcMediaPath := canonicalizeMediaPath srcPath
          match zfile srcZip srcMediaPath with
          | some data =>
            let se := splitNameExt srcMediaPath
            let dest := uniqueMediaName st.baseZip se.1 se.2
            let st1 := { st with ct := ensureCT st.ct se.2 }
            let st2 := { st1 with baseZip := zset st1.baseZip dest data }
            let relTarget := relativeTo docPartPath dest
            (some newId,
             { st2 with baseRels := addRelationship st2.baseRels newId type relTarget mode })
          | none =>
            (some newId,
             { st with baseRels := addRelationship st.baseRels newId type target mode })
        else
          let srcFull := normalizePath docPartPath target
          match zfile srcZip srcFull with
          | some data =>
            let unique := uniquePartPath st.baseZip srcFull
            let st1 := { st with baseZip := zset st.baseZip unique data }
            let relTarget := relativeTo docPartPath unique
            (some newId,
             { st1 with baseRels := addRelationship st1.baseRels newId type relTarget mode })
          | none =>
            (some newId,
             { st with baseRels := addRelationship st.baseRels newId type target mode })

/-- The per-attribute body of the reference-rewrite loop in
`importBodyNodes` (lines 158–163): a namespaced `r:id` attribute value is
resolved through `remapRelationship`; on success the attribute is set to
the new ID, otherwise the attribute is removed entirely. -/
def rewriteRid (rid : Option String) (srcRels : RelSet) (srcZip : Zip) (st : RRState) :
    Option String × RRState :=
  match rid with
  | none => (none, st)
  | some oldRid =>
    match remapRelationship oldRid srcRels srcZip st with
    | (some newRid, st1) => (some newRid, st1)
    | (none, st1) => (none, st1)

/-- The alloc-then-add discipline every allocation site of the merge call
follows (each branch of `remapRelationship`, `ensureStyleRelationships`,
and the notes-rels loop of `mergeNotes` adds the freshly allocated ID to
the set before the allocator can be called again): allocate `rId<max+1>`,
then add an entry carrying it. -/
def allocAddStep (rels : RelSet) (ttm : String × String × Option String) : RelSet :=
  addRelationship rels (allocRid rels) ttm.1 ttm.2.1 ttm.2.2

/-- The IDs handed out by a sequence of alloc-then-add calls within one
merge call. -/
def allocSeqIds (rels : RelSet) : List (String × String × Option String) → List String
  | [] => []
  | ttm :: rest => allocRid rels :: allocSeqIds (allocAddStep rels ttm) rest

/-! ## Supporting lemmas for Model A -/

theorem findParasGo_nil_iff (text : String) :
    ∀ (body : List Elem) (i : Nat),
      findParasGo body text i = [] ↔ ∀ e ∈ body, paraContains e text = false := by
  intro body
  induction body with
  | nil => intro i; simp [findParasGo]
  | cons e t ih =>
    intro i
    by_cases h : paraContains e text
    · simp [findParasGo, h]
    · have hb : paraContains e text = false := by simpa using h
      simp [findParasGo, hb, ih (i + 1)]

theorem findParas_nil_iff (body : List Elem) (text : String) :
    findParagraphsContainingText body text = [] ↔
      ∀ e ∈ body, paraContains e text = false := by
  exact findParasGo_nil_iff text body 0

theorem detachLastSectPr_trailing (init : List Elem) (props : String) :
    detachLastSectPr (init ++ [Elem.sectPrE props]) = (init, some (Elem.sectPrE props)) := by
  induction init with
  | nil => simp [detachLastSectPr, isSectPr]
  | cons e t ih => simp [detachLastSectPr, ih]

theorem detachLastSectPr_subset (body : List Elem) :
    ∀ e ∈ (detachLastSectPr body).1, e ∈ body := by
  induction body with
  | nil => simp [detachLastSectPr]
  | cons e t ih =>
    intro x hx
    rcases hm : detachLastSectPr t with ⟨r1, s?⟩
    rw [hm] at ih
    rcases s? with _ | s
    · by_cases hs : isSectPr e
      · simp only [detachLastSectPr, hm, hs, if_true] at hx
        exact List.mem_cons_of_mem _ hx
      · simp only [detachLastSectPr, hm, hs, if_false] at hx
        rcases List.mem_cons.mp hx with h | h
        · exact h ▸ List.mem_cons_self _ _
        · exact List.mem_cons_of_mem _ (ih _ h)
    · simp only [detachLastSectPr, hm] at hx
      rcases List.mem_cons.mp hx with h | h
      · exact h ▸ List.mem_cons_self _ _
      · exact List.mem_cons_of_mem _ (ih _ h)

theorem detachLastSectPr_mem (body : List Elem) :
    ∀ e ∈ body, isSectPr e = false → e ∈ (detachLastSectPr body).1 := by
  induction body with
  | nil => simp
  | cons e t ih =>
    intro x hx hns
    rcases hm : detachLastSectPr t with ⟨r1, s?⟩
    rw [hm] at ih
    rcases s? with _ | s
    · by_cases hs : isSectPr e
      · simp only [detachLastSectPr, hm, hs, if_true]
        rcases List.mem_cons.mp hx with h | h
        · rw [h] at hns; rw [hns] at hs; exact absurd hs (by simp)
        · exact h
      · simp only [detachLastSectPr, hm, hs, if_false]
        rcases List.mem_cons.mp hx with h | h
        · exact h ▸ List.mem_cons_self _ _
        · exact List.mem_cons_of_mem _ (ih _ h hns)
    · simp only [detachLastSectPr, hm]
      rcases List.mem_cons.mp hx with h | h
      · exact h ▸ List.mem_cons_self _ _
      · exact List.mem_cons_of_mem _ (ih _ h hns)

theorem paraContains_not_sectPr (e : Elem) (text : String) :
    paraContains e text = true → isSectPr e = false := by
  cases e <;> simp [paraContains, isSectPr]

theorem detach_noMatch_iff (body : List Elem) (text : String) :
    (∀ e ∈ (detachLastSectPr body).1, paraContains e text = false) ↔
      (∀ e ∈ body, paraContains e text = false) := by
  constructor
  · intro h e he
    by_cases hc : paraContains e text
    · exfalso
      have hmem := detachLastSectPr_mem body e he (paraContains_not_sectPr e text hc)
      have hfalse := h e hmem
      rw [hc] at hfalse
      exact absurd hfalse (by simp)
    · simpa using hc
  · intro h e he
    exact h e (detachLastSectPr_subset body e he)

theorem findParasGo_first (text : String) (anchor : Elem) (post : List Elem)
    (hanchor : paraContains anchor text = true) :
    ∀ (pre : List Elem) (i : Nat), (∀ e ∈ pre, paraContains e text = false) →
      ∃ rest, findParasGo (pre ++ anchor :: post) text i = (i + pre.length) :: rest := by
  intro pre
  induction pre with
  | nil =>
    intro i _
    exact ⟨findParasGo post text (i + 1), by simp [findParasGo, hanchor]⟩
  | cons e t ih =>
    intro i hpre
    have he : paraContains e text = false := hpre e (List.mem_cons_self _ _)
    have ht : ∀ x ∈ t, paraContains x text = false :=
      fun x hx => hpre x (List.mem_cons_of_mem _ hx)
    obtain ⟨rest, hr⟩ := ih (i + 1) ht
    refine ⟨rest, ?_⟩
    have hlen : i + (e :: t).length = (i + 1) + t.length := by
      simp [List.length_cons]
      omega
    rw [List.cons_append]
    show findParasGo (e :: (t ++ anchor :: post)) text i = (i + (e :: t).length) :: rest
    rw [hlen]
    simp only [findParasGo, he, if_false, Bool.false_eq_true]
    exact hr

theorem insert_foldl (srcs : List MDoc) :
    ∀ (pre tail : List Elem),
      srcs.foldl (fun st s => insertDocBefore st.1 st.2 s) (pre ++ tail, pre.length)
        = (pre ++ (srcs.map importBodyNodes).flatten ++ tail,
           (pre ++ (srcs.map importBodyNodes).flatten).length) := by
  induction srcs with
  | nil =>
    intro pre tail
    simp
  | cons s rest ih =>
    intro pre tail
    have hstep : insertDocBefore (pre ++ tail) pre.length s
        = ((pre ++ importBodyNodes s) ++ tail, (pre ++ importBodyNodes s).length) := by
      unfold insertDocBefore
      rw [List.take_left, List.drop_left]
      simp [List.append_assoc, List.length_append]
    rw [List.foldl_cons]
    show List.foldl (fun st s => insertDocBefore st.1 st.2 s)
        (insertDocBefore (pre ++ tail) pre.length s) rest = _
    rw [hstep, ih (pre ++ importBodyNodes s) tail]
    simp [List.append_assoc]

theorem mergeDocx_valid (base : MDoc) (srcs : List MDoc) (opt : Opts)
    (hsrcs : srcs ≠ [])
    (hmode : (patActive opt.pattern || opt.insertStart || opt.insertEnd) = true) :
    mergeDocx (base :: srcs) opt = mergeBody base srcs opt := by
  have hpos : 0 < srcs.length := List.length_pos.mpr hsrcs
  have hlen : ¬((base :: srcs).length < 2) := by
    simp only [List.length_cons]
    omega
  have hval : (!patActive opt.pattern && !opt.insertStart && !opt.insertEnd) = false := by
    revert hmode
    cases patActive opt.pattern <;> cases opt.insertStart <;> cases opt.insertEnd <;> simp
  unfold mergeDocx
  rw [if_neg hlen, hval]
  simp

theorem ite_error_shape {c : Prop} [Decidable c] (x t : List Elem) :
    (if c then Except.error MergeError.noInsertionPerformed else Except.ok (x ++ t))
        = Except.error MergeError.noInsertionPerformed ∨
    ∃ pre, (if c then Except.error MergeError.noInsertionPerformed else Except.ok (x ++ t))
        = Except.ok (pre ++ t) := by
  by_cases h : c
  · exact Or.inl (if_pos h)
  · exact Or.inr ⟨x, if_neg h⟩

theorem ite_sum_ok (x t : List Elem) {n : Nat} (hn : n ≠ 0) :
    (if n = 0 then Except.error MergeError.noInsertionPerformed else Except.ok (x ++ t))
      ≠ Except.error MergeError.noInsertionPerformed := by
  rw [if_neg hn]
  simp

theorem mergeBody_ne_error_of_flag (base : MDoc) (srcs : List MDoc) (opt : Opts)
    (h : opt.insertStart = true ∨ opt.insertEnd = true) :
    mergeBody base srcs opt ≠ Except.error MergeError.noInsertionPerformed := by
  intro hContra
  simp only [mergeBody] at hContra
  by_cases hS : opt.insertStart = true <;> by_cases hE : opt.insertEnd = true
  · simp only [if_pos hS, if_pos hE] at hContra
    refine ite_sum_ok _ _ ?_ hContra
    omega
  · simp only [if_pos hS, if_neg hE] at hContra
    refine ite_sum_ok _ _ ?_ hContra
    omega
  · simp only [if_neg hS, if_pos hE] at hContra
    refine ite_sum_ok _ _ ?_ hContra
    omega
  · rcases h with h | h
    · exact hS h
    · exact hE h

theorem mergeBody_pattern_only (base : MDoc) (srcs : List MDoc) (opt : Opts)
    (hS : opt.insertStart = false) (hE : opt.insertEnd = false) :
    mergeBody base srcs opt =
      (if (patternStep (detachLastSectPr base.body).1 srcs opt).2 = 0
       then Except.error MergeError.noInsertionPerformed
       else Except.ok ((patternStep (detachLastSectPr base.body).1 srcs opt).1
              ++ (detachLastSectPr base.body).2.toList)) := by
  simp only [mergeBody, hS, hE]
  simp

theorem patternStep_of_none (body : List Elem) (srcs : List MDoc) (opt : Opts)
    (hfind : findParagraphsContainingText body (opt.pattern.getD "") = []) :
    patternStep body srcs opt = (body, 0) := by
  unfold patternStep
  by_cases hp : patActive opt.pattern
  · simp [hp, hfind]
  · simp [hp]

theorem patternStep_of_match (body : List Elem) (srcs : List MDoc) (opt : Opts)
    (hpat : patActive opt.pattern = true) (i : Nat) (rest : List Nat)
    (hfind : findParagraphsContainingText body (opt.pattern.getD "") = i :: rest) :
    patternStep body srcs opt =
      ((srcs.foldl (fun st s => insertDocBefore st.1 st.2 s) (body, i)).1, 1) := by
  unfold patternStep
  simp [hpat, hfind]

theorem mergeDocx_ok_mergeBody (docs : List MDoc) (opt : Opts) (out : List Elem)
    (hok : mergeDocx docs opt = Except.ok out) :
    ∃ base srcs, docs = base :: srcs ∧ mergeBody base srcs opt = Except.ok out := by
  cases docs with
  | nil => simp [mergeDocx] at hok
  | cons b srcs =>
    refine ⟨b, srcs, rfl, ?_⟩
    unfold mergeDocx at hok
    split at hok
    · cases hok
    · split at hok
      · cases hok
      · exact hok

theorem mergeBody_shape (base : MDoc) (srcs : List MDoc) (opt : Opts) :
    mergeBody base srcs opt = Except.error MergeError.noInsertionPerformed ∨
    ∃ pre, mergeBody base srcs opt = Except.ok (pre ++ (detachLastSectPr base.body).2.toList) := by
  simp only [mergeBody]
  by_cases hS : opt.insertStart = true <;> by_cases hE : opt.insertEnd = true
  all_goals
    first
      | simp only [if_pos hS, if_pos hE]
      | simp only [if_pos hS, if_neg hE]
      | simp only [if_neg hS, if_pos hE]
      | simp only [if_neg hS, if_neg hE]
  all_goals exact ite_error_shape _ _

theorem mergeBody_ok_sect (base : MDoc) (srcs : List MDoc) (opt : Opts) (out : List Elem)
    (hok : mergeBody base srcs opt = Except.ok out) :
    ∃ pre, out = pre ++ (detachLastSectPr base.body).2.toList := by
  rcases mergeBody_shape base srcs opt with hsh | ⟨pre, hsh⟩
  · rw [hsh] at hok
    cases hok
  · rw [hsh] at hok
    injection hok with h
    exact ⟨pre, h.symm⟩

/-! ## Claim theorems: C1, C2, C3, C8 -/

/-- C1.  The claim states that with `insertStart` set every source's body
content is placed at the very top of the base body, before every original
base body child.  The code does not do this: `appendDocInto` ignores its
`atEnd` flag and always appends imported nodes to the end of the body, so
with `insertStart` the sources end up after all original base content.  At
the concrete failing input (base body `[para "Base"]`, one source with body
`[para "S1"]`, `insertStart` only, page breaks off) the merged body is
`[para "Base", para "S1"]` — the inserted paragraph comes after the base
paragraph, not before it as the claim requires. -/
theorem insertStart_appends_after_base :
    mergeDocx [⟨[Elem.para ["Base"]]⟩, ⟨[Elem.para ["S1"]]⟩]
        { pattern := none, insertStart := true, insertEnd := false, pageBreaks := false }
      = Except.ok [Elem.para ["Base"], Elem.para ["S1"]] := by
  rfl

/-- C2.  A merge call that passes input validation (at least two sources,
at least one of pattern/insertStart/insertEnd set) fails with
`NoInsertionPerformed` if and only if neither `insertStart` nor `insertEnd`
is set and no paragraph of the base body contains the pattern; the
`Except.error` result means no output package is produced. -/
theorem noInsertionPerformed_iff_pattern_unmatched (base : MDoc) (srcs : List MDoc)
    (opt : Opts) (hsrcs : srcs ≠ [])
    (hmode : (patActive opt.pattern || opt.insertStart || opt.insertEnd) = true) :
    mergeDocx (base :: srcs) opt = Except.error MergeError.noInsertionPerformed ↔
      (opt.insertStart = false ∧ opt.insertEnd = false ∧
        ∀ e ∈ base.body, paraContains e (opt.pattern.getD "") = false) := by
  rw [mergeDocx_valid base srcs opt hsrcs hmode]
  by_cases hS : opt.insertStart = true
  · constructor
    · intro h
      exact absurd h (mergeBody_ne_error_of_flag _ _ _ (Or.inl hS))
    · rintro ⟨h1, -, -⟩
      rw [hS] at h1
      cases h1
  · have hS' : opt.insertStart = false := by
      cases hv : opt.insertStart
      · rfl
      · exact absurd hv hS
    by_cases hE : opt.insertEnd = true
    · constructor
      · intro h
        exact absurd h (mergeBody_ne_error_of_flag _ _ _ (Or.inr hE))
      · rintro ⟨-, h2, -⟩
        rw [hE] at h2
        cases h2
    · have hE' : opt.insertEnd = false := by
        cases hv : opt.insertEnd
        · rfl
        · exact absurd hv hE
      rw [mergeBody_pattern_only base srcs opt hS' hE']
      constructor
      · intro herr
        refine ⟨hS', hE', ?_⟩
        rw [← detach_noMatch_iff, ← findParas_nil_iff]
        by_contra hne
        obtain ⟨i, rest, hfind⟩ :
            ∃ i rest, findParagraphsContainingText (detachLastSectPr base.body).1
              (opt.pattern.getD "") = i :: rest := by
          rcases hf : findParagraphsContainingText (detachLastSectPr base.body).1
              (opt.pattern.getD "") with _ | ⟨i, rest⟩
          · exact absurd hf hne
          · exact ⟨i, rest, rfl⟩
        have hpat : patActive opt.pattern = true := by
          revert hmode
          rw [hS', hE']
          cases patActive opt.pattern <;> simp
        rw [patternStep_of_match _ srcs opt hpat i rest hfind] at herr
        simp at herr
      · rintro ⟨-, -, hnm⟩
        have hfind : findParagraphsContainingText (detachLastSectPr base.body).1
            (opt.pattern.getD "") = [] := by
          rw [findParas_nil_iff]
          exact (detach_noMatch_iff base.body (opt.pattern.getD "")).mpr hnm
        rw [patternStep_of_none _ srcs opt hfind]
        simp

/-- C2 witness: pattern-only mode with a pattern absent from the base body
fails with `NoInsertionPerformed`. -/
theorem noInsertionPerformed_iff_pattern_unmatched_witness :
    mergeDocx [⟨[Elem.para ["Alpha"]]⟩, ⟨[Elem.para ["I1"]]⟩]
        { pattern := some "ZZZ", insertStart := false, insertEnd := false, pageBreaks := true }
      = Except.error MergeError.noInsertionPerformed := by
  exact (noInsertionPerformed_iff_pattern_unmatched ⟨[Elem.para ["Alpha"]]⟩ [⟨[Elem.para ["I1"]]⟩]
      { pattern := some "ZZZ", insertStart := false, insertEnd := false, pageBreaks := true }
      (by simp) (by decide)).mpr ⟨rfl, rfl, by decide⟩

/-- C3.  In pure pattern mode (pattern set and nonempty, the flag modes
off), if the detached base body splits as `pre ++ anchor :: post` where
`anchor` is the first paragraph whose concatenated run text contains the
pattern (no paragraph of `pre` matches), then the merge inserts every
source's imported nodes immediately before that anchor: the output body is
`pre`, then all sources' imported nodes as one contiguous block in
source-array order, then the still-present anchor, then the rest, with the
detached trailing `w:sectPr` (if any) re-appended last. -/
theorem pattern_inserts_sources_before_first_anchor (base : MDoc) (srcs : List MDoc)
    (opt : Opts) (p : String) (pre post : List Elem) (anchor : Elem) (sect? : Option Elem)
    (hsrcs : srcs ≠ [])
    (hp : opt.pattern = some p) (hpne : p ≠ "")
    (hS : opt.insertStart = false) (hE : opt.insertEnd = false)
    (hdet : detachLastSectPr base.body = (pre ++ anchor :: post, sect?))
    (hanchor : paraContains anchor p = true)
    (hpre : ∀ e ∈ pre, paraContains e p = false) :
    mergeDocx (base :: srcs) opt =
      Except.ok (pre ++ (srcs.map importBodyNodes).flatten ++ anchor :: post ++ sect?.toList) := by
  have hpat : patActive opt.pattern = true := by
    rw [hp]
    simp [patActive, hpne]
  have hmode : (patActive opt.pattern || opt.insertStart || opt.insertEnd) = true := by
    rw [hpat]
    simp
  rw [mergeDocx_valid base srcs opt hsrcs hmode]
  rw [mergeBody_pattern_only base srcs opt hS hE]
  have hgetD : opt.pattern.getD "" = p := by
    rw [hp]
    rfl
  obtain ⟨rest, hfind0⟩ := findParasGo_first p anchor post hanchor pre 0 hpre
  have hfind : findParagraphsContainingText (pre ++ anchor :: post) p = pre.length :: rest := by
    unfold findParagraphsContainingText
    rw [hfind0]
    congr 1
    omega
  have hfind' : findParagraphsContainingText (detachLastSectPr base.body).1
      (opt.pattern.getD "") = pre.length :: rest := by
    rw [hdet, hgetD]
    exact hfind
  rw [patternStep_of_match _ srcs opt hpat pre.length rest hfind']
  rw [hdet]
  simp only []
  rw [insert_foldl srcs pre (anchor :: post)]
  simp [List.append_assoc]

/-- C3 witness: two sources inserted before the `"ANCHOR"` paragraph of the
base, in array order, with the anchor still present and the trailing
`w:sectPr` last. -/
theorem pattern_inserts_sources_before_first_anchor_witness :
    mergeDocx [⟨[Elem.para ["Alpha"], Elem.para ["ANCH", "OR"], Elem.sectPrE "sp"]⟩,
        ⟨[Elem.para ["I1"]]⟩, ⟨[Elem.para ["I2"]]⟩]
        { pattern := some "ANCHOR", insertStart := false, insertEnd := false, pageBreaks := false }
      = Except.ok [Elem.para ["Alpha"], Elem.para ["I1"], Elem.para ["I2"],
          Elem.para ["ANCH", "OR"], Elem.sectPrE "sp"] := by
  have h := pattern_inserts_sources_before_first_anchor
    ⟨[Elem.para ["Alpha"], Elem.para ["ANCH", "OR"], Elem.sectPrE "sp"]⟩
    [⟨[Elem.para ["I1"]]⟩, ⟨[Elem.para ["I2"]]⟩]
    { pattern := some "ANCHOR", insertStart := false, insertEnd := false, pageBreaks := false }
    "ANCHOR" [Elem.para ["Alpha"]] [] (Elem.para ["ANCH", "OR"]) (some (Elem.sectPrE "sp"))
    (by simp) rfl (by decide) rfl rfl (by decide) (by decide) (by decide)
  simpa using h

/-- C8.  For every successful merge whose base body ends with a
section-properties element, that element is detached before any insertion
and re-appended after all insertions, so it is again the last child of the
output body, unchanged, for any sources, options and insertion modes. -/
theorem trailing_sectPr_restored_last (docs : List MDoc) (opt : Opts) (base : MDoc)
    (init : List Elem) (props : String) (out : List Elem)
    (hhead : docs.head? = some base)
    (hbody : base.body = init ++ [Elem.sectPrE props])
    (hok : mergeDocx docs opt = Except.ok out) :
    ∃ pre, out = pre ++ [Elem.sectPrE props] := by
  obtain ⟨b, srcs, hd, hmb⟩ := mergeDocx_ok_mergeBody docs opt out hok
  have hb : b = base := by
    rw [hd] at hhead
    simpa using hhead
  subst hb
  obtain ⟨pre, hpre⟩ := mergeBody_ok_sect b srcs opt out hmb
  rw [hbody, detachLastSectPr_trailing init props] at hpre
  exact ⟨pre, by simpa using hpre⟩

/-- C8 witness: an `insertEnd` merge with page breaks re-appends the base's
trailing `w:sectPr` as the last body child. -/
theorem trailing_sectPr_restored_last_witness :
    ∃ pre, [Elem.para ["B"], Elem.para [], Elem.para ["S"], Elem.sectPrE "sp"]
      = pre ++ [Elem.sectPrE "sp"] := by
  exact trailing_sectPr_restored_last
    [⟨[Elem.para ["B"], Elem.sectPrE "sp"]⟩, ⟨[Elem.para ["S"]]⟩]
    { pattern := none, insertStart := false, insertEnd := true, pageBreaks := true }
    ⟨[Elem.para ["B"], Elem.sectPrE "sp"]⟩ [Elem.para ["B"]] "sp"
    [Elem.para ["B"], Elem.para [], Elem.para ["S"], Elem.sectPrE "sp"]
    rfl rfl (by rfl)

/-! ## Supporting lemmas: maps and folds -/

theorem mget_mset (m : IntMap) (k v k' : Int) :
    mget (mset m k v) k' = if k' = k then some v else mget m k' := by
  by_cases h : k' = k
  · subst h
    simp [mget, mset]
  · rw [if_neg h]
    unfold mget mset
    rw [List.find?_cons_of_neg]
    simp
    exact fun hkk => absurd hkk.symm h

theorem foldl_max_init_le (l : List Int) : ∀ a : Int, a ≤ l.foldl max a := by
  induction l with
  | nil =>
    intro a
    simp
  | cons h t ih =>
    intro a
    calc a ≤ max a h := le_max_left a h
      _ ≤ t.foldl max (max a h) := ih (max a h)

theorem foldl_max_le (l : List Int) : ∀ (a x : Int), x ∈ l → x ≤ l.foldl max a := by
  induction l with
  | nil => simp
  | cons h t ih =>
    intro a x hx
    rcases List.mem_cons.mp hx with h' | h'
    · subst h'
      calc x ≤ max a x := le_max_right a x
        _ ≤ t.foldl max (max a x) := foldl_max_init_le t (max a x)
    · exact ih (max a h) x h'

theorem jsMax0_mem (l : List Int) (x : Int) (hx : x ∈ l) : x ≤ jsMax0 l :=
  foldl_max_le l 0 x hx

/-! ## Supporting lemmas: Model D (notes) -/

theorem mergeNotesGo_acc (l : List Note) :
    ∀ (maxId : Int) (m : IntMap) (acc : List Note),
      (mergeNotesGo l maxId m acc).2.2
        = acc ++ renumberFrom maxId (l.filter (fun n => !(decide (n.noteId < 0)))) := by
  induction l with
  | nil =>
    intro maxId m acc
    simp [mergeNotesGo, renumberFrom]
  | cons n t ih =>
    intro maxId m acc
    by_cases h : n.noteId < 0
    · simp [mergeNotesGo, h, ih]
    · simp [mergeNotesGo, h, ih, renumberFrom]

theorem renumberFrom_gt (l : List Note) :
    ∀ (s : Int), ∀ x ∈ renumberFrom s l, s < x.noteId := by
  induction l with
  | nil => simp [renumberFrom]
  | cons n t ih =>
    intro s x hx
    rcases List.mem_cons.mp hx with h | h
    · rw [h]
      simp
    · have := ih (s + 1) x h
      omega

theorem renumberFrom_nodup (l : List Note) :
    ∀ s : Int, ((renumberFrom s l).map (·.noteId)).Nodup := by
  induction l with
  | nil =>
    intro s
    simp [renumberFrom]
  | cons n t ih =>
    intro s
    simp only [renumberFrom, List.map_cons, List.nodup_cons]
    refine ⟨?_, ih (s + 1)⟩
    intro hmem
    obtain ⟨x, hx, hid⟩ := List.mem_map.mp hmem
    have := renumberFrom_gt t (s + 1) x hx
    omega

theorem mergeNotesGo_map_isSome (l : List Note) :
    ∀ (maxId : Int) (m : IntMap) (acc : List Note) (k : Int),
      (mget m k).isSome = true → (mget (mergeNotesGo l maxId m acc).2.1 k).isSome = true := by
  induction l with
  | nil =>
    intro maxId m acc k h
    simpa [mergeNotesGo] using h
  | cons n t ih =>
    intro maxId m acc k h
    have hstep : ∀ (k0 v0 : Int), (mget (mset m k0 v0) k).isSome = true := by
      intro k0 v0
      rw [mget_mset]
      by_cases hk : k = k0
      · simp [hk]
      · simp [hk, h]
    by_cases hn : n.noteId < 0
    · simp only [mergeNotesGo, hn, if_pos]
      exact ih maxId _ acc k (hstep _ _)
    · simp only [mergeNotesGo, hn, if_neg, if_false]
      exact ih (maxId + 1) _ _ k (hstep _ _)

theorem mergeNotesGo_neg_pres (l : List Note) :
    ∀ (maxId : Int) (m : IntMap) (acc : List Note),
      (∀ k v, k < 0 → mget m k = some v → v = k) →
      (∀ k v, k < 0 → mget (mergeNotesGo l maxId m acc).2.1 k = some v → v = k) := by
  induction l with
  | nil =>
    intro maxId m acc hP k v hk hget
    exact hP k v hk (by simpa [mergeNotesGo] using hget)
  | cons n t ih =>
    intro maxId m acc hP
    by_cases hn : n.noteId < 0
    · simp only [mergeNotesGo, hn, if_pos]
      refine ih maxId _ acc ?_
      intro k v hk hget
      rw [mget_mset] at hget
      by_cases hkk : k = n.noteId
      · rw [if_pos hkk] at hget
        injection hget with hv
        omega
      · rw [if_neg hkk] at hget
        exact hP k v hk hget
    · simp only [mergeNotesGo, hn, if_neg, if_false]
      refine ih (maxId + 1) _ _ ?_
      intro k v hk hget
      rw [mget_mset] at hget
      by_cases hkk : k = n.noteId
      · exfalso
        omega
      · rw [if_neg hkk] at hget
        exact hP k v hk hget

theorem mergeNotesGo_neg_mem (l : List Note) :
    ∀ (maxId : Int) (m : IntMap) (acc : List Note),
      ∀ n ∈ l, n.noteId < 0 → (mget (mergeNotesGo l maxId m acc).2.1 n.noteId).isSome = true := by
  induction l with
  | nil => simp
  | cons n0 t ih =>
    intro maxId m acc n hn hneg
    rcases List.mem_cons.mp hn with h | h
    · subst h
      by_cases h0 : n.noteId < 0
      · simp only [mergeNotesGo, h0, if_pos]
        refine mergeNotesGo_map_isSome t maxId _ acc n.noteId ?_
        rw [mget_mset]
        simp
      · exact absurd hneg h0
    · by_cases h0 : n0.noteId < 0
      · simp only [mergeNotesGo, h0, if_pos]
        exact ih maxId _ acc n h hneg
      · simp only [mergeNotesGo, h0, if_neg, if_false]
        exact ih (maxId + 1) _ _ n h hneg

/-- C6.  Footnote/endnote merge: every non-negative source note is copied
with a fresh ID from a counter seeded at `Math.max(0, max non-negative base
ID)` (the copied notes are exactly `renumberFrom` of the non-negative
source notes, so the new IDs are strictly greater than every non-negative
base ID and pairwise distinct), while every negative source note ID maps to
itself through the returned remap table. -/
theorem notes_merge_spec (base src : List Note) :
    (mergeNotes base src).1
        = base ++ renumberFrom (noteSeed base) (src.filter (fun n => !(decide (n.noteId < 0)))) ∧
    (∀ b ∈ base, 0 ≤ b.noteId →
      ∀ x ∈ renumberFrom (noteSeed base) (src.filter (fun n => !(decide (n.noteId < 0)))),
        b.noteId < x.noteId) ∧
    ((renumberFrom (noteSeed base)
        (src.filter (fun n => !(decide (n.noteId < 0))))).map (·.noteId)).Nodup ∧
    (∀ n ∈ src, n.noteId < 0 → mget (mergeNotes base src).2 n.noteId = some n.noteId) := by
  refine ⟨?_, ?_, renumberFrom_nodup _ _, ?_⟩
  · simp only [mergeNotes]
    rw [mergeNotesGo_acc]
    simp
  · intro b hb hbe x hx
    have hseed : b.noteId ≤ noteSeed base := by
      refine jsMax0_mem _ _ ?_
      rw [List.mem_filter]
      exact ⟨List.mem_map.mpr ⟨b, hb, rfl⟩, by simpa using hbe⟩
    have := renumberFrom_gt _ (noteSeed base) x hx
    omega
  · intro n hn hneg
    have hsome := mergeNotesGo_neg_mem src (noteSeed base) [] [] n hn hneg
    obtain ⟨v, hv⟩ := Option.isSome_iff_exists.mp hsome
    have hvk := mergeNotesGo_neg_pres src (noteSeed base) [] []
      (by intro k v hk hget; simp [mget] at hget) n.noteId v hneg hv
    simp only [mergeNotes]
    rw [hv, hvk]

/-- C6 witness: base notes with IDs `1, -1, 5` merged with source notes
with IDs `-1, 0, 2`: the non-negative source notes are appended with fresh
IDs `6, 7`, and the negative source ID `-1` maps to itself. -/
theorem notes_merge_spec_witness :
    (mergeNotes [⟨1, "b1"⟩, ⟨-1, "sep"⟩, ⟨5, "b5"⟩] [⟨-1, "s"⟩, ⟨0, "s0"⟩, ⟨2, "s2"⟩]).1
        = [⟨1, "b1"⟩, ⟨-1, "sep"⟩, ⟨5, "b5"⟩, ⟨6, "s0"⟩, ⟨7, "s2"⟩] ∧
    mget (mergeNotes [⟨1, "b1"⟩, ⟨-1, "sep"⟩, ⟨5, "b5"⟩]
        [⟨-1, "s"⟩, ⟨0, "s0"⟩, ⟨2, "s2"⟩]).2 (-1) = some (-1) := by
  have h := notes_merge_spec [⟨1, "b1"⟩, ⟨-1, "sep"⟩, ⟨5, "b5"⟩] [⟨-1, "s"⟩, ⟨0, "s0"⟩, ⟨2, "s2"⟩]
  constructor
  · rw [h.1]
    rfl
  · exact h.2.2.2 ⟨-1, "s"⟩ (by simp) (by decide)

/-! ## Supporting lemmas: Model C (styles) -/

theorem truthyIds_mem_iff (l : List Style) (id : String) :
    id ∈ truthyIds l ↔ (∃ s ∈ l, s.styleId = some id) ∧ id ≠ "" := by
  unfold truthyIds
  rw [List.mem_filterMap]
  constructor
  · rintro ⟨s, hs, hmatch⟩
    rcases hsid : s.styleId with _ | sid
    · rw [hsid] at hmatch
      simp at hmatch
    · rw [hsid] at hmatch
      by_cases hne : (sid == "") = true
      · simp [hne] at hmatch
      · simp [hne] at hmatch
        subst hmatch
        exact ⟨⟨s, hs, hsid⟩, by simpa using hne⟩
  · rintro ⟨⟨s, hs, hsid⟩, hne⟩
    exact ⟨s, hs, by simp [hsid, hne]⟩

theorem truthyIds_cons_truthy (s : Style) (t : List Style) (id : String)
    (hsid : s.styleId = some id) (hne : id ≠ "") :
    truthyIds (s :: t) = id :: truthyIds t := by
  unfold truthyIds
  rw [List.filterMap_cons]
  simp [hsid, hne]

theorem truthyIds_cons_falsy (s : Style) (t : List Style)
    (hid : idTruthy s.styleId = false) :
    truthyIds (s :: t) = truthyIds t := by
  unfold truthyIds
  rw [List.filterMap_cons]
  rcases hsid : s.styleId with _ | sid
  · simp
  · rw [hsid] at hid
    unfold idTruthy at hid
    simp at hid
    simp [hid]

theorem idTruthy_iff (o : Option String) :
    idTruthy o = true ↔ ∃ id, o = some id ∧ id ≠ "" := by
  rcases o with _ | id
  · simp [idTruthy]
  · by_cases h : id = ""
    · simp [idTruthy, h]
    · simp [idTruthy, h]

theorem mergeStylesGo_cons (s : Style) (t : List Style) (existing : List (Option String))
    (acc : List Style) :
    mergeStylesGo (s :: t) existing acc
      = if (idTruthy s.styleId && !(existing.contains s.styleId)) = true
        then mergeStylesGo t (existing ++ [s.styleId]) (acc ++ [s])
        else mergeStylesGo t existing acc := rfl

theorem mergeStylesGo_filter (t : List Style) :
    ∀ (existing0 extra : List (Option String)) (acc : List Style),
      (truthyIds t).Nodup →
      (∀ s ∈ t, idTruthy s.styleId = true → s.styleId ∉ extra) →
      mergeStylesGo t (existing0 ++ extra) acc
        = acc ++ t.filter (fun s => idTruthy s.styleId && !(existing0.contains s.styleId)) := by
  induction t with
  | nil =>
    intro existing0 extra acc _ _
    simp [mergeStylesGo]
  | cons s t ih =>
    intro existing0 extra acc hnd hextra
    rw [mergeStylesGo_cons]
    by_cases hid : idTruthy s.styleId = true
    · obtain ⟨id, hsid, hidne⟩ := (idTruthy_iff s.styleId).mp hid
      rw [truthyIds_cons_truthy s t id hsid hidne] at hnd
      have hmemt : id ∉ truthyIds t := (List.nodup_cons.mp hnd).1
      have hndt : (truthyIds t).Nodup := (List.nodup_cons.mp hnd).2
      have hxs : s.styleId ∉ extra := hextra s (List.mem_cons_self _ _) hid
      have hcont : ((existing0 ++ extra).contains s.styleId) = existing0.contains s.styleId := by
        simp [hxs]
      by_cases hc : existing0.contains s.styleId = true
      · have hcm : s.styleId ∈ existing0 := by simpa using hc
        rw [if_neg (by rw [hcont]; simp [hid, hcm])]
        rw [ih existing0 extra acc hndt
          (fun s' hs' ht' => hextra s' (List.mem_cons_of_mem _ hs') ht')]
        rw [List.filter_cons_of_neg (by simp [hid, hcm])]
      · have hcm' : s.styleId ∉ existing0 := by
          intro hmem
          exact hc (by simpa using hmem)
        rw [if_pos (by rw [hcont]; simp [hid, hcm'])]
        have hextra' : ∀ s' ∈ t, idTruthy s'.styleId = true →
            s'.styleId ∉ extra ++ [s.styleId] := by
          intro s' hs' ht' hmem
          rcases List.mem_append.mp hmem with hmem | hmem
          · exact hextra s' (List.mem_cons_of_mem _ hs') ht' hmem
          · obtain ⟨id', hsid', hidne'⟩ := (idTruthy_iff s'.styleId).mp ht'
            simp at hmem
            rw [hsid, hsid'] at hmem
            injection hmem with hmem
            exact hmemt ((truthyIds_mem_iff t id).mpr ⟨⟨s', hs', by rw [hsid', hmem]⟩, hidne⟩)
        rw [show (existing0 ++ extra) ++ [s.styleId] = existing0 ++ (extra ++ [s.styleId]) from
          List.append_assoc _ _ _]
        rw [ih existing0 (extra ++ [s.styleId]) (acc ++ [s]) hndt hextra']
        rw [List.filter_cons_of_pos (by simp [hid, hcm'])]
        simp [List.append_assoc]
    · have hid' : idTruthy s.styleId = false := by
        cases hv : idTruthy s.styleId
        · rfl
        · exact absurd hv hid
      rw [truthyIds_cons_falsy s t hid'] at hnd
      rw [if_neg (by simp [hid'])]
      rw [ih existing0 extra acc hnd
        (fun s' hs' ht' => hextra s' (List.mem_cons_of_mem _ hs') ht')]
      rw [List.filter_cons_of_neg (by simp [hid'])]

/-- C7.  Styles merge over the main `styles.xml` table: the merged table is
exactly the base table (retained unchanged, in place, entries verbatim)
followed by exactly those source styles whose ID is truthy and not already
present among the base styles' IDs (collisions are dropped, everything else
is appended verbatim, so no style ID is ever rewritten); consequently, when
the base and source tables each carry no duplicate (truthy) style IDs, the
merged table carries no duplicate (truthy) style ID either. -/
theorem styles_first_writer_wins (base src : List Style)
    (hbase : (truthyIds base).Nodup) (hsrc : (truthyIds src).Nodup) :
    mergeStylesPart base src
        = base ++ src.filter
            (fun s => idTruthy s.styleId && !((base.map (·.styleId)).contains s.styleId)) ∧
    (truthyIds (mergeStylesPart base src)).Nodup := by
  have heq : mergeStylesPart base src
      = base ++ src.filter
          (fun s => idTruthy s.styleId && !((base.map (·.styleId)).contains s.styleId)) := by
    have h := mergeStylesGo_filter src (base.map (·.styleId)) [] base hsrc (by simp)
    unfold mergeStylesPart
    simpa using h
  refine ⟨heq, ?_⟩
  rw [heq]
  unfold truthyIds
  rw [List.filterMap_append, List.nodup_append]
  refine ⟨hbase, ?_, ?_⟩
  · exact List.Nodup.sublist (List.Sublist.filterMap _ (List.filter_sublist _)) hsrc
  · intro a ha hb
    obtain ⟨⟨sb, hsb, hsbid⟩, hane⟩ := (truthyIds_mem_iff base a).mp ha
    obtain ⟨⟨sf, hsf, hsfid⟩, -⟩ := (truthyIds_mem_iff _ a).mp hb
    have hcond := (List.mem_filter.mp hsf).2
    have hmem : sf.styleId ∈ base.map (·.styleId) := by
      rw [hsfid]
      exact List.mem_map.mpr ⟨sb, hsb, by rw [hsbid]⟩
    simp [hmem] at hcond

/-- C7 witness: a colliding `Normal` source style is dropped (base's
retained), the fresh `Fancy` style is appended, a falsy-ID source style is
ignored, and the merged table has no duplicate truthy ID. -/
theorem styles_first_writer_wins_witness :
    mergeStylesPart
        [{ styleId := some "Normal", content := "bN" }, { styleId := none, content := "x" }]
        [{ styleId := some "Normal", content := "sN" },
         { styleId := some "Fancy", content := "sF" },
         { styleId := some "", content := "e" }]
      = [{ styleId := some "Normal", content := "bN" }, { styleId := none, content := "x" },
         { styleId := some "Fancy", content := "sF" }] ∧
    (truthyIds (mergeStylesPart
        [{ styleId := some "Normal", content := "bN" }, { styleId := none, content := "x" }]
        [{ styleId := some "Normal", content := "sN" },
         { styleId := some "Fancy", content := "sF" },
         { styleId := some "", content := "e" }])).Nodup := by
  have h := styles_first_writer_wins
    [{ styleId := some "Normal", content := "bN" }, { styleId := none, content := "x" }]
    [{ styleId := some "Normal", content := "sN" },
     { styleId := some "Fancy", content := "sF" },
     { styleId := some "", content := "e" }]
    (by decide) (by decide)
  exact ⟨by rw [h.1]; rfl, h.2⟩

/-! ## Supporting lemmas: Model B (numbering) -/

theorem mergeAbstractsGo_cons (a : AbstractNum) (t : List AbstractNum) (absMax : Int)
    (m : IntMap) (acc : List AbstractNum) :
    mergeAbstractsGo (a :: t) absMax m acc
      = mergeAbstractsGo t (absMax + 1) (mset m a.absId (absMax + 1))
          (acc ++ [{ absId := absMax + 1, content := a.content }]) := rfl

theorem mergeInstancesGo_cons (i : NumInstance) (t : List NumInstance) (numMax : Int)
    (m absIdMap : IntMap) (acc : List NumInstance) :
    mergeInstancesGo (i :: t) numMax m absIdMap acc
      = mergeInstancesGo t (numMax + 1) (mset m i.numId (numMax + 1)) absIdMap
          (acc ++ [{ numId := numMax + 1,
                     absRef := match i.absRef with
                       | some oldAbs => some ((mget absIdMap oldAbs).getD oldAbs)
                       | none => none }]) := rfl

theorem mergeAbstractsGo_good (l : List AbstractNum) :
    ∀ (absMax : Int) (m : IntMap) (acc : List AbstractNum),
      (∀ k v, mget m k = some v → v ∈ acc.map (·.absId)) →
      (∀ k v, mget (mergeAbstractsGo l absMax m acc).2.1 k = some v →
        v ∈ (mergeAbstractsGo l absMax m acc).2.2.map (·.absId)) := by
  induction l with
  | nil =>
    intro absMax m acc hgood k v hget
    exact hgood k v hget
  | cons a t ih =>
    intro absMax m acc hgood k v hget
    rw [mergeAbstractsGo_cons] at hget ⊢
    refine ih (absMax + 1) _ _ ?_ k v hget
    intro k' v' hget'
    rw [mget_mset] at hget'
    by_cases hk : k' = a.absId
    · rw [if_pos hk] at hget'
      injection hget' with hv
      subst hv
      simp
    · rw [if_neg hk] at hget'
      have := hgood k' v' hget'
      simp only [List.map_append, List.mem_append]
      exact Or.inl this

theorem mergeAbstractsGo_isSome (l : List AbstractNum) :
    ∀ (absMax : Int) (m : IntMap) (acc : List AbstractNum) (k : Int),
      (mget m k).isSome = true →
      (mget (mergeAbstractsGo l absMax m acc).2.1 k).isSome = true := by
  induction l with
  | nil =>
    intro absMax m acc k h
    exact h
  | cons a t ih =>
    intro absMax m acc k h
    rw [mergeAbstractsGo_cons]
    refine ih (absMax + 1) _ _ k ?_
    rw [mget_mset]
    by_cases hk : k = a.absId
    · simp [hk]
    · simp [hk, h]

theorem mergeAbstractsGo_covers (l : List AbstractNum) :
    ∀ (absMax : Int) (m : IntMap) (acc : List AbstractNum),
      ∀ a ∈ l, (mget (mergeAbstractsGo l absMax m acc).2.1 a.absId).isSome = true := by
  induction l with
  | nil => simp
  | cons a0 t ih =>
    intro absMax m acc a ha
    rw [mergeAbstractsGo_cons]
    rcases List.mem_cons.mp ha with h | h
    · subst h
      refine mergeAbstractsGo_isSome t (absMax + 1) _ _ a.absId ?_
      rw [mget_mset]
      simp
    · exact ih (absMax + 1) _ _ a h

theorem mergeInstancesGo_good (l : List NumInstance) :
    ∀ (numMax : Int) (m absIdMap : IntMap) (acc : List NumInstance),
      (∀ k v, mget m k = some v → v ∈ acc.map (·.numId)) →
      (∀ k v, mget (mergeInstancesGo l numMax m absIdMap acc).2.1 k = some v →
        v ∈ (mergeInstancesGo l numMax m absIdMap acc).2.2.map (·.numId)) := by
  induction l with
  | nil =>
    intro numMax m absIdMap acc hgood k v hget
    exact hgood k v hget
  | cons i t ih =>
    intro numMax m absIdMap acc hgood k v hget
    rw [mergeInstancesGo_cons] at hget ⊢
    refine ih (numMax + 1) _ absIdMap _ ?_ k v hget
    intro k' v' hget'
    rw [mget_mset] at hget'
    by_cases hk : k' = i.numId
    · rw [if_pos hk] at hget'
      injection hget' with hv
      subst hv
      simp
    · rw [if_neg hk] at hget'
      have := hgood k' v' hget'
      simp only [List.map_append, List.mem_append]
      exact Or.inl this

theorem mergeInstancesGo_isSome (l : List NumInstance) :
    ∀ (numMax : Int) (m absIdMap : IntMap) (acc : List NumInstance) (k : Int),
      (mget m k).isSome = true →
      (mget (mergeInstancesGo l numMax m absIdMap acc).2.1 k).isSome = true := by
  induction l with
  | nil =>
    intro numMax m absIdMap acc k h
    exact h
  | cons i t ih =>
    intro numMax m absIdMap acc k h
    rw [mergeInstancesGo_cons]
    refine ih (numMax + 1) _ absIdMap _ k ?_
    rw [mget_mset]
    by_cases hk : k = i.numId
    · simp [hk]
    · simp [hk, h]

theorem mergeInstancesGo_covers (l : List NumInstance) :
    ∀ (numMax : Int) (m absIdMap : IntMap) (acc : List NumInstance),
      ∀ i ∈ l, (mget (mergeInstancesGo l numMax m absIdMap acc).2.1 i.numId).isSome = true := by
  induction l with
  | nil => simp
  | cons i0 t ih =>
    intro numMax m absIdMap acc i hi
    rw [mergeInstancesGo_cons]
    rcases List.mem_cons.mp hi with h | h
    · subst h
      refine mergeInstancesGo_isSome t (numMax + 1) _ absIdMap _ i.numId ?_
      rw [mget_mset]
      simp
    · exact ih (numMax + 1) _ absIdMap _ i h

theorem mergeInstancesGo_acc_chars (l : List NumInstance) :
    ∀ (numMax : Int) (m absIdMap : IntMap) (acc : List NumInstance),
      ∀ i' ∈ (mergeInstancesGo l numMax m absIdMap acc).2.2,
        i' ∈ acc ∨ ∃ i ∈ l, i'.absRef = (match i.absRef with
          | some oldAbs => some ((mget absIdMap oldAbs).getD oldAbs)
          | none => none) := by
  induction l with
  | nil =>
    intro numMax m absIdMap acc i' hi'
    exact Or.inl hi'
  | cons i t ih =>
    intro numMax m absIdMap acc i' hi'
    rw [mergeInstancesGo_cons] at hi'
    rcases ih (numMax + 1) _ absIdMap _ i' hi' with h | ⟨j, hj, habs⟩
    · rcases List.mem_append.mp h with h | h
      · exact Or.inl h
      · simp at h
        subst h
        exact Or.inr ⟨i, List.mem_cons_self _ _, rfl⟩
    · exact Or.inr ⟨j, List.mem_cons_of_mem _ hj, habs⟩

theorem mergeNumberingParts_spec (baseN srcN : Numbering)
    (hbase : tableConsistent baseN) (hsrc : tableConsistent srcN) :
    tableConsistent (mergeNumberingParts baseN srcN).1 ∧
    (∀ v ∈ numIds srcN, ∃ u, mget (mergeNumberingParts baseN srcN).2.1 v = some u ∧
        u ∈ numIds (mergeNumberingParts baseN srcN).1) ∧
    (mergeNumberingParts baseN srcN).1.abstracts
        = baseN.abstracts ++ (mergeAbstractsGo srcN.abstracts (jsMax0 (absIds baseN)) [] []).2.2 ∧
    (mergeNumberingParts baseN srcN).1.instances
        = baseN.instances ++ (mergeInstancesGo srcN.instances (jsMax0 (numIds baseN)) []
            (mergeAbstractsGo srcN.abstracts (jsMax0 (absIds baseN)) [] []).2.1 []).2.2 := by
  have hGoodAbs : ∀ k v,
      mget (mergeAbstractsGo srcN.abstracts (jsMax0 (absIds baseN)) [] []).2.1 k = some v →
      v ∈ ((mergeAbstractsGo srcN.abstracts (jsMax0 (absIds baseN)) [] []).2.2.map (·.absId)) :=
    mergeAbstractsGo_good srcN.abstracts (jsMax0 (absIds baseN)) [] []
      (by intro k v hget; simp [mget] at hget)
  have hGoodInst : ∀ k v,
      mget (mergeInstancesGo srcN.instances (jsMax0 (numIds baseN)) []
          (mergeAbstractsGo srcN.abstracts (jsMax0 (absIds baseN)) [] []).2.1 []).2.1 k = some v →
      v ∈ ((mergeInstancesGo srcN.instances (jsMax0 (numIds baseN)) []
          (mergeAbstractsGo srcN.abstracts (jsMax0 (absIds baseN)) [] []).2.1 []).2.2.map
            (·.numId)) :=
    mergeInstancesGo_good srcN.instances (jsMax0 (numIds baseN)) [] _ []
      (by intro k v hget; simp [mget] at hget)
  refine ⟨?_, ?_, rfl, rfl⟩
  · intro inst hinst a ha
    have hmem : inst ∈ baseN.instances ++ (mergeInstancesGo srcN.instances
        (jsMax0 (numIds baseN)) [] (mergeAbstractsGo srcN.abstracts (jsMax0 (absIds baseN))
          [] []).2.1 []).2.2 := hinst
    rcases List.mem_append.mp hmem with h | h
    · have := hbase inst h a ha
      unfold absIds at this ⊢
      simp only [mergeNumberingParts, List.map_append, List.mem_append]
      exact Or.inl this
    · rcases mergeInstancesGo_acc_chars srcN.instances (jsMax0 (numIds baseN)) [] _ [] inst h
        with hacc | ⟨i, hi, habs⟩
      · simp at hacc
      · rcases href : i.absRef with _ | oldAbs
        · rw [href] at habs
          simp at habs
          rw [habs] at ha
          cases ha
        · rw [href] at habs
          simp only at habs
          have holdmem : oldAbs ∈ absIds srcN := hsrc i hi oldAbs href
          obtain ⟨aDef, haDef, haid⟩ := List.mem_map.mp holdmem
          have hcov := mergeAbstractsGo_covers srcN.abstracts (jsMax0 (absIds baseN)) [] []
            aDef haDef
          rw [haid] at hcov
          obtain ⟨w, hw⟩ := Option.isSome_iff_exists.mp hcov
          have hwmem := hGoodAbs oldAbs w hw
          have habs' : inst.absRef = some w := by
            rw [habs, hw]
            rfl
          rw [ha] at habs'
          injection habs' with haw
          unfold absIds
          simp only [mergeNumberingParts, List.map_append, List.mem_append]
          rw [haw]
          exact Or.inr hwmem
  · intro v hv
    obtain ⟨inst, hinst, hid⟩ := List.mem_map.mp hv
    have hcov := mergeInstancesGo_covers srcN.instances (jsMax0 (numIds baseN)) []
      (mergeAbstractsGo srcN.abstracts (jsMax0 (absIds baseN)) [] []).2.1 [] inst hinst
    rw [hid] at hcov
    obtain ⟨u, hu⟩ := Option.isSome_iff_exists.mp hcov
    refine ⟨u, ?_, ?_⟩
    · exact hu
    · have := hGoodInst v u hu
      unfold numIds
      simp only [mergeNumberingParts, List.map_append, List.mem_append]
      exact Or.inr this

theorem mergeStepNumbering_eq (st : Numbering × List (List (Option Int)))
    (src : Numbering × List (Option Int)) :
    mergeStepNumbering st src
      = ((mergeNumberingParts st.1 src.1).1,
         st.2 ++ [remapNumberingInBody src.2 (mergeNumberingParts st.1 src.1).2.1]) := rfl

theorem mergeStepNumbering_inv (st : Numbering × List (List (Option Int)))
    (src : Numbering × List (Option Int))
    (hT : tableConsistent st.1) (hB : ∀ b ∈ st.2, bodyConsistent st.1 b)
    (hsrcT : tableConsistent src.1) (hsrcB : bodyConsistent src.1 src.2) :
    tableConsistent (mergeStepNumbering st src).1 ∧
      ∀ b ∈ (mergeStepNumbering st src).2, bodyConsistent (mergeStepNumbering st src).1 b := by
  obtain ⟨hTm, hmap, habs, hinst⟩ := mergeNumberingParts_spec st.1 src.1 hT hsrcT
  have hmono : ∀ v ∈ numIds st.1, v ∈ numIds (mergeNumberingParts st.1 src.1).1 := by
    intro v hv
    unfold numIds at hv ⊢
    rw [hinst]
    simp only [List.map_append, List.mem_append]
    exact Or.inl hv
  rw [mergeStepNumbering_eq]
  constructor
  · exact hTm
  · intro b hb
    rcases List.mem_append.mp hb with h | h
    · intro v hv
      exact hmono v (hB b h v hv)
    · simp at h
      subst h
      intro v hv
      unfold remapNumberingInBody at hv
      obtain ⟨o, ho, hfo⟩ := List.mem_map.mp hv
      rcases o with _ | w
      · simp at hfo
      · simp only at hfo
        injection hfo with hfo
        have hw : w ∈ numIds src.1 := hsrcB w ho
        obtain ⟨u, hu, humem⟩ := hmap w hw
        rw [hu] at hfo
        simp at hfo
        rw [← hfo]
        exact humem

theorem mergeAllNumbering_fold_inv (srcs : List (Numbering × List (Option Int))) :
    ∀ st, tableConsistent st.1 → (∀ b ∈ st.2, bodyConsistent st.1 b) →
      (∀ s ∈ srcs, tableConsistent s.1) → (∀ s ∈ srcs, bodyConsistent s.1 s.2) →
      tableConsistent (srcs.foldl mergeStepNumbering st).1 ∧
      ∀ b ∈ (srcs.foldl mergeStepNumbering st).2,
        bodyConsistent (srcs.foldl mergeStepNumbering st).1 b := by
  induction srcs with
  | nil =>
    intro st h1 h2 _ _
    exact ⟨h1, h2⟩
  | cons s t ih =>
    intro st h1 h2 h3 h4
    rw [List.foldl_cons]
    obtain ⟨h1', h2'⟩ := mergeStepNumbering_inv st s h1 h2 (h3 s (by simp)) (h4 s (by simp))
    exact ih _ h1' h2' (fun s' hs' => h3 s' (List.mem_cons_of_mem _ hs'))
      (fun s' hs' => h4 s' (List.mem_cons_of_mem _ hs'))

/-- C4.  Numbering merge invariant: starting from an internally consistent
base numbering table and folding in any list of sources whose tables are
internally consistent and whose bodies only reference instances of their
own table (the hypotheses of the claim), the final merged table is
internally consistent — every instance's abstract-ID reference resolves to
an abstract definition present in the same merged table — and every
`numId` referenced from any source's remapped (imported) body resolves to
an instance present in the merged table. -/
theorem numbering_remap_invariant (baseN : Numbering)
    (srcs : List (Numbering × List (Option Int)))
    (hbase : tableConsistent baseN)
    (hsrcT : ∀ s ∈ srcs, tableConsistent s.1)
    (hsrcB : ∀ s ∈ srcs, bodyConsistent s.1 s.2) :
    tableConsistent (mergeAllNumbering baseN srcs).1 ∧
    ∀ b ∈ (mergeAllNumbering baseN srcs).2,
      bodyConsistent (mergeAllNumbering baseN srcs).1 b := by
  unfold mergeAllNumbering
  exact mergeAllNumbering_fold_inv srcs (baseN, []) hbase (by simp) hsrcT hsrcB

/-- C4 witness: merging one source (table `abstractNum 1`, `num 1 → 1`,
body referencing `numId 1`) into an identical base renumbers the source
instance to `2`; the remapped body reference `2` resolves in the merged
table. -/
theorem numbering_remap_invariant_witness :
    (2 : Int) ∈ numIds (mergeAllNumbering
        { abstracts := [{ absId := 1, content := "a" }],
          instances := [{ numId := 1, absRef := some 1 }] }
        [({ abstracts := [{ absId := 1, content := "sa" }],
            instances := [{ numId := 1, absRef := some 1 }] }, [some 1, none])]).1 := by
  have h := numbering_remap_invariant
    { abstracts := [{ absId := 1, content := "a" }],
      instances := [{ numId := 1, absRef := some 1 }] }
    [({ abstracts := [{ absId := 1, content := "sa" }],
        instances := [{ numId := 1, absRef := some 1 }] }, [some 1, none])]
    (by
      intro inst hinst a ha
      simp at hinst
      subst hinst
      simp at ha
      subst ha
      decide)
    (by
      intro s hs
      simp at hs
      subst hs
      intro inst hinst a ha
      simp at hinst
      subst hinst
      simp at ha
      subst ha
      decide)
    (by
      intro s hs
      simp at hs
      subst hs
      intro v hv
      simp at hv
      subst hv
      decide)
  exact h.2 [some 2, none] (by decide) 2 (by decide)

/-! ## Supporting lemmas: Model E (allocator, C10) -/

theorem digitsVal_append_singleton (a : List Char) (c : Char) :
    digitsVal (a ++ [c]) = digitsVal a * 10 + digitVal c := by
  unfold digitsVal
  rw [List.foldl_append]
  rfl

theorem digitChar_spec (n : Nat) (h : n < 10) :
    Char.isDigit (digitChar n) = true ∧ digitVal (digitChar n) = n := by
  interval_cases n <;> exact ⟨by decide, by decide⟩

theorem natDecimalGo_spec (fuel : Nat) :
    ∀ n, n < fuel →
      (∀ c ∈ natDecimalGo fuel n, Char.isDigit c = true) ∧
      natDecimalGo fuel n ≠ [] ∧
      digitsVal (natDecimalGo fuel n) = n := by
  induction fuel with
  | zero =>
    intro n h
    omega
  | succ fuel ih =>
    intro n h
    by_cases h10 : n < 10
    · unfold natDecimalGo
      rw [if_pos h10]
      obtain ⟨hd, hv⟩ := digitChar_spec n h10
      refine ⟨?_, by simp, ?_⟩
      · intro c hc
        simp at hc
        subst hc
        exact hd
      · show digitsVal ([] ++ [digitChar n]) = n
        rw [digitsVal_append_singleton]
        rw [show digitsVal ([] : List Char) = 0 from rfl]
        simpa using hv
    · unfold natDecimalGo
      rw [if_neg h10]
      have hdiv : n / 10 < fuel := by
        have := Nat.div_lt_self (by omega : 0 < n) (by omega : 1 < 10)
        omega
      obtain ⟨ihd, ihne, ihv⟩ := ih (n / 10) hdiv
      obtain ⟨hd, hv⟩ := digitChar_spec (n % 10) (Nat.mod_lt n (by omega))
      refine ⟨?_, by simp, ?_⟩
      · intro c hc
        rcases List.mem_append.mp hc with h' | h'
        · exact ihd c h'
        · simp at h'
          subst h'
          exact hd
      · rw [digitsVal_append_singleton, ihv, hv]
        omega

theorem natDecimal_spec (n : Nat) :
    (∀ c ∈ natDecimal n, Char.isDigit c = true) ∧ natDecimal n ≠ [] ∧
      digitsVal (natDecimal n) = n :=
  natDecimalGo_spec (n + 1) n (by omega)

theorem takeWhile_all (l : List Char) (h : ∀ c ∈ l, Char.isDigit c = true) :
    l.takeWhile Char.isDigit = l := by
  induction l with
  | nil => rfl
  | cons c t ih =>
    rw [List.takeWhile_cons]
    rw [h c (List.mem_cons_self _ _)]
    simp [ih (fun c' hc' => h c' (List.mem_cons_of_mem _ hc'))]

theorem firstRidNum_cons (c : Char) (t : List Char) :
    firstRidNum (c :: t)
      = if (c == 'r' && isPrefixChars ['I', 'd'] t) = true then
          if ((t.drop 2).takeWhile Char.isDigit).isEmpty then firstRidNum t
          else some (digitsVal ((t.drop 2).takeWhile Char.isDigit))
        else firstRidNum t := rfl

theorem firstRidNum_rid (n : Nat) :
    firstRidNum ('r' :: 'I' :: 'd' :: natDecimal n) = some n := by
  obtain ⟨hd, hne, hv⟩ := natDecimal_spec n
  rw [firstRidNum_cons]
  rw [if_pos (by simp [isPrefixChars])]
  rw [show (('I' :: 'd' :: natDecimal n).drop 2) = natDecimal n from rfl]
  rw [takeWhile_all _ hd]
  rw [if_neg (by simpa using hne)]
  rw [hv]

theorem ridSuffix_allocRid (rels : RelSet) :
    ridSuffix (allocRid rels) = some (ridMax rels + 1) := by
  unfold allocRid ridSuffix
  exact firstRidNum_rid _

theorem ridFold_init_le (rels : RelSet) :
    ∀ a : Nat, a ≤ rels.foldl (fun m r => match ridSuffix r.relId with
      | some n => max m n
      | none => m) a := by
  induction rels with
  | nil =>
    intro a
    simp
  | cons r t ih =>
    intro a
    rw [List.foldl_cons]
    refine le_trans ?_ (ih _)
    rcases h : ridSuffix r.relId with _ | n
    · simp
    · simp [le_max_left]

theorem ridFold_mem_le (rels : RelSet) :
    ∀ (a : Nat) (r : RelEntry), r ∈ rels → ∀ n, ridSuffix r.relId = some n →
      n ≤ rels.foldl (fun m r => match ridSuffix r.relId with
        | some k => max m k
        | none => m) a := by
  induction rels with
  | nil => simp
  | cons r0 t ih =>
    intro a r hr n hn
    rw [List.foldl_cons]
    rcases List.mem_cons.mp hr with h | h
    · subst h
      rw [hn]
      refine le_trans (le_max_right a n) (ridFold_init_le t _)
    · exact ih _ r h n hn

theorem ridMax_ub (rels : RelSet) (r : RelEntry) (hr : r ∈ rels) (n : Nat)
    (hn : ridSuffix r.relId = some n) : n ≤ ridMax rels :=
  ridFold_mem_le rels 0 r hr n hn

theorem ridMax_append_single (rels : RelSet) (e : RelEntry) :
    ridMax (rels ++ [e]) = (match ridSuffix e.relId with
      | some n => max (ridMax rels) n
      | none => ridMax rels) := by
  unfold ridMax
  rw [List.foldl_append]
  rfl

theorem ridMax_allocAddStep (rels : RelSet) (ttm : String × String × Option String) :
    ridMax (allocAddStep rels ttm) = ridMax rels + 1 := by
  unfold allocAddStep addRelationship
  rw [ridMax_append_single]
  rw [ridSuffix_allocRid]
  simp

theorem allocSeqIds_cons (rels : RelSet) (ttm : String × String × Option String)
    (rest : List (String × String × Option String)) :
    allocSeqIds rels (ttm :: rest) = allocRid rels :: allocSeqIds (allocAddStep rels ttm) rest :=
  rfl

theorem allocSeqIds_gt (ttms : List (String × String × Option String)) :
    ∀ rels, ∀ id ∈ allocSeqIds rels ttms, ∃ n, ridSuffix id = some n ∧ ridMax rels < n := by
  induction ttms with
  | nil => simp [allocSeqIds]
  | cons ttm rest ih =>
    intro rels id hid
    rw [allocSeqIds_cons] at hid
    rcases List.mem_cons.mp hid with h | h
    · subst h
      exact ⟨ridMax rels + 1, ridSuffix_allocRid rels, by omega⟩
    · obtain ⟨n, hs, hgt⟩ := ih (allocAddStep rels ttm) id h
      rw [ridMax_allocAddStep] at hgt
      exact ⟨n, hs, by omega⟩

theorem allocSeqIds_nodup (ttms : List (String × String × Option String)) :
    ∀ rels, (allocSeqIds rels ttms).Nodup := by
  induction ttms with
  | nil =>
    intro rels
    simp [allocSeqIds]
  | cons ttm rest ih =>
    intro rels
    rw [allocSeqIds_cons, List.nodup_cons]
    refine ⟨?_, ih _⟩
    intro hmem
    obtain ⟨n, hs, hgt⟩ := allocSeqIds_gt rest (allocAddStep rels ttm) _ hmem
    rw [ridMax_allocAddStep] at hgt
    rw [ridSuffix_allocRid] at hs
    injection hs with hs
    omega

/-- C10.  The relationship-ID allocator returns `rId<N+1>` where `N` is
the maximum numeric suffix over the entries currently in the set
(`ridSuffix` of the returned ID parses back to `N+1`, and `N` bounds every
entry's parsed suffix), and under the alloc-then-add discipline that every
allocation site of the merge call follows (each branch of
`remapRelationship`, `ensureStyleRelationships` and the notes-rels loop
adds the freshly allocated entry before the allocator is called again),
the allocated IDs within one merge call are pairwise distinct and distinct
from every pre-existing entry's ID. -/
theorem rid_allocator_spec (rels : RelSet) (ttms : List (String × String × Option String)) :
    ridSuffix (allocRid rels) = some (ridMax rels + 1) ∧
    (∀ r ∈ rels, ∀ n, ridSuffix r.relId = some n → n ≤ ridMax rels) ∧
    (allocSeqIds rels ttms).Nodup ∧
    (∀ id ∈ allocSeqIds rels ttms, ∀ r ∈ rels, id ≠ r.relId) := by
  refine ⟨ridSuffix_allocRid rels, ?_, allocSeqIds_nodup ttms rels, ?_⟩
  · intro r hr n hn
    exact ridMax_ub rels r hr n hn
  · intro id hid r hr heq
    obtain ⟨n, hs, hgt⟩ := allocSeqIds_gt ttms rels id hid
    rw [heq] at hs
    have hle := ridMax_ub rels r hr n hs
    omega

/-- C10 witness: over a set holding `rId3`, the allocator returns an ID
whose suffix parses to `4`, and two successive alloc-then-add calls return
IDs distinct from each other and from `rId3`. -/
theorem rid_allocator_spec_witness :
    ridSuffix (allocRid [{ relId := "rId3", relType := "T", target := "G", targetMode := none }])
        = some 4 ∧
    (allocSeqIds [{ relId := "rId3", relType := "T", target := "G", targetMode := none }]
        [("T1", "G1", none), ("T2", "G2", none)]).Nodup ∧
    allocRid [{ relId := "rId3", relType := "T", target := "G", targetMode := none }] ≠ "rId3" := by
  have h := rid_allocator_spec
    [{ relId := "rId3", relType := "T", target := "G", targetMode := none }]
    [("T1", "G1", none), ("T2", "G2", none)]
  refine ⟨h.1, h.2.2.1, ?_⟩
  exact h.2.2.2 (allocRid [{ relId := "rId3", relType := "T", target := "G", targetMode := none }])
    (by rw [allocSeqIds_cons]; exact List.mem_cons_self _ _)
    { relId := "rId3", relType := "T", target := "G", targetMode := none }
    (List.mem_cons_self _ _)

/-! ## Claim theorems: C5 and C9 -/

/-- C5 counterexample.  The claim, read universally, also covers a
reference attribute whose value is the empty string.  With a source
relationship entry whose `Id` is `""` and a base entry with the same
(type, target, targetMode) triple, the referenced ID does have an entry in
the source set and the base set has an equivalent entry, yet
`remapRelationship` returns `null`: the `if(!oldRid) return null` guard
fires before the lookup, so the dedup path is never reached and the
existing base ID `rId1` is not returned. -/
theorem relationship_dedup_counterexample :
    findRelationshipById
        [{ relId := "", relType := "T", target := "G", targetMode := none }] ""
      = some { relId := "", relType := "T", target := "G", targetMode := none } ∧
    findRelationshipByTypeAndTarget
        [{ relId := "rId1", relType := "T", target := "G", targetMode := none }] "T" "G" none
      = some { relId := "rId1", relType := "T", target := "G", targetMode := none } ∧
    (remapRelationship "" [{ relId := "", relType := "T", target := "G", targetMode := none }]
        { files := [] }
        { baseRels := [{ relId := "rId1", relType := "T", target := "G", targetMode := none }],
          baseZip := { files := [] }, ct := [], logs := [] }).1 = none := by
  exact ⟨rfl, rfl, rfl⟩

/-- C5 (amended).  For every relationship-ID reference attribute of an
imported subtree: if the referenced ID has no entry in the source
relationship set, resolution returns `null`, the rewrite loop removes the
attribute entirely, and the base state is untouched (no dangling reference
remains, nothing is added); for a non-empty referenced ID that resolves to
a source entry whose (type, target, targetMode) triple already exists in
the base relationship set, resolution returns that existing entry's local
ID and adds no new relationship entry (the state is returned unchanged).
An empty-string reference returns `null` even when an empty-ID source
entry exists (the falsy-ID guard runs before the lookup). -/
theorem relationship_null_and_dedup (oldRid : String) (srcRels : RelSet) (srcZip : Zip)
    (st : RRState) :
    (findRelationshipById srcRels oldRid = none →
       remapRelationship oldRid srcRels srcZip st = (none, st) ∧
       rewriteRid (some oldRid) srcRels srcZip st = (none, st)) ∧
    (∀ srcRel ex, oldRid ≠ "" →
       findRelationshipById srcRels oldRid = some srcRel →
       findRelationshipByTypeAndTarget st.baseRels srcRel.relType srcRel.target
           (optTruthy srcRel.targetMode) = some ex →
       remapRelationship oldRid srcRels srcZip st = (some ex.relId, st)) := by
  constructor
  · intro hfind
    have hremap : remapRelationship oldRid srcRels srcZip st = (none, st) := by
      by_cases h0 : (oldRid == "") = true
      · unfold remapRelationship
        rw [if_pos h0]
      · unfold remapRelationship
        rw [if_neg h0, hfind]
    refine ⟨hremap, ?_⟩
    show (match remapRelationship oldRid srcRels srcZip st with
      | (some newRid, st1) => (some newRid, st1)
      | (none, st1) => ((none : Option String), st1)) = ((none : Option String), st)
    rw [hremap]
  · intro srcRel ex hne hfind hdedup
    have h0 : ¬((oldRid == "") = true) := by
      simp [hne]
    unfold remapRelationship
    rw [if_neg h0, hfind]
    simp only [hdedup]

/-- C5 witness: a dangling `rId9` reference resolves to `null` with the
attribute removed and the state untouched; a `rId1` reference whose
(type, target, mode) triple already exists in the base resolves to the
existing `rId7` with no new entry. -/
theorem relationship_null_and_dedup_witness :
    remapRelationship "rId9" [⟨"rId1", "T", "G", none⟩] ⟨[]⟩ ⟨[], ⟨[]⟩, [], []⟩
      = (none, ⟨[], ⟨[]⟩, [], []⟩) ∧
    rewriteRid (some "rId9") [⟨"rId1", "T", "G", none⟩] ⟨[]⟩ ⟨[], ⟨[]⟩, [], []⟩
      = (none, ⟨[], ⟨[]⟩, [], []⟩) ∧
    remapRelationship "rId1" [⟨"rId1", "T", "G", some "External"⟩] ⟨[]⟩
        ⟨[⟨"rId7", "T", "G", some "External"⟩], ⟨[]⟩, [], []⟩
      = (some "rId7", ⟨[⟨"rId7", "T", "G", some "External"⟩], ⟨[]⟩, [], []⟩) := by
  have h1 := relationship_null_and_dedup "rId9" [⟨"rId1", "T", "G", none⟩] ⟨[]⟩ ⟨[], ⟨[]⟩, [], []⟩
  have h2 := relationship_null_and_dedup "rId1" [⟨"rId1", "T", "G", some "External"⟩] ⟨[]⟩
    ⟨[⟨"rId7", "T", "G", some "External"⟩], ⟨[]⟩, [], []⟩
  obtain ⟨ha, hb⟩ := h1.1 (by rfl)
  refine ⟨ha, hb, ?_⟩
  exact h2.2 ⟨"rId1", "T", "G", some "External"⟩ ⟨"rId7", "T", "G", some "External"⟩
    (by decide) (by rfl) (by rfl)

/-- C9 counterexample.  The claim asserts that, for an image relationship
with a missing binary payload, (a) a warning is surfaced via the logging
callback and (b) the missing asset is the only error class that degrades
rather than failing the call.  Both conjuncts fail on the code.  First
conjunct of this theorem: at a concrete missing-payload image
relationship, resolution returns a fresh non-null ID and creates the
entry, yet the log trace of the resulting state is `[]` — `remapRelationship`
is never given the logging callback and emits nothing, so no warning is
surfaced.  Second conjunct: a generic (non-hyperlink, non-image)
relationship whose underlying part is absent from the source package
degrades in exactly the same way — entry created pointing at the original
target, non-null ID returned, no failure — so the missing media asset is
not the only degrading class. -/
theorem missing_asset_claim_counterexample :
    remapRelationship "rId1"
        [⟨"rId1", "http://schemas.openxmlformats.org/officeDocument/2006/relationships/image",
          "media/missing.png", none⟩] ⟨[]⟩ ⟨[], ⟨[]⟩, [], []⟩
      = (some "rId1",
         ⟨[⟨"rId1", "http://schemas.openxmlformats.org/officeDocument/2006/relationships/image",
           "media/missing.png", none⟩], ⟨[]⟩, [], []⟩) ∧
    remapRelationship "rId1"
        [⟨"rId1", "http://schemas.openxmlformats.org/officeDocument/2006/relationships/customXml",
          "../customXml/item1.xml", none⟩] ⟨[]⟩ ⟨[], ⟨[]⟩, [], []⟩
      = (some "rId1",
         ⟨[⟨"rId1", "http://schemas.openxmlformats.org/officeDocument/2006/relationships/customXml",
           "../customXml/item1.xml", none⟩], ⟨[]⟩, [], []⟩) :=
  ⟨rfl, rfl⟩

/-- C9 (amended).  Resolving an image-type relationship whose binary
payload is absent from the source package does not abort the merge: a
relationship entry is still created in the base relationship set,
pointing at the original target, and a fresh non-null local ID is
returned — but no warning is surfaced through the logging callback (the
resolver has no access to it: the state's package, content types and log
trace are returned unchanged); and the missing media asset is not the
only error class that degrades rather than failing the call: a generic
(non-hyperlink, non-image) relationship whose underlying part is absent
from the source package degrades identically. -/
theorem missing_payload_degrades (oldRid : String) (srcRels : RelSet) (srcZip : Zip)
    (st : RRState) (srcRel : RelEntry)
    (hne : oldRid ≠ "")
    (hfind : findRelationshipById srcRels oldRid = some srcRel)
    (hnodedup : findRelationshipByTypeAndTarget st.baseRels srcRel.relType srcRel.target
        (optTruthy srcRel.targetMode) = none)
    (hnothyp : strEndsWith srcRel.relType "/hyperlink" = false) :
    (strEndsWith srcRel.relType "/image" = true →
      zfile srcZip (canonicalizeMediaPath (normalizePath docPartPath srcRel.target)) = none →
      remapRelationship oldRid srcRels srcZip st
        = (some (allocRid st.baseRels),
           ⟨addRelationship st.baseRels (allocRid st.baseRels) srcRel.relType srcRel.target
              (optTruthy srcRel.targetMode), st.baseZip, st.ct, st.logs⟩)) ∧
    (strEndsWith srcRel.relType "/image" = false →
      zfile srcZip (normalizePath docPartPath srcRel.target) = none →
      remapRelationship oldRid srcRels srcZip st
        = (some (allocRid st.baseRels),
           ⟨addRelationship st.baseRels (allocRid st.baseRels) srcRel.relType srcRel.target
              (optTruthy srcRel.targetMode), st.baseZip, st.ct, st.logs⟩)) := by
  have h0 : ¬((oldRid == "") = true) := by
    simp [hne]
  constructor
  · intro himg hmiss
    unfold remapRelationship
    rw [if_neg h0, hfind]
    simp only [hnodedup, hnothyp, himg, hmiss, Bool.false_eq_true, if_false, if_true]
  · intro hnotimg hmiss
    unfold remapRelationship
    rw [if_neg h0, hfind]
    simp only [hnodedup, hnothyp, hnotimg, hmiss, Bool.false_eq_true, if_false, if_true]

/-- C9 witness: the amended theorem applied at a concrete missing-payload
image relationship and at a concrete missing-part generic relationship. -/
theorem missing_payload_degrades_witness :
    remapRelationship "rId5"
        [⟨"rId5", "http://schemas.openxmlformats.org/officeDocument/2006/relationships/image",
          "media/gone.png", none⟩] ⟨[("word/other.bin", "x")]⟩
        ⟨[⟨"rId2", "T0", "G0", none⟩], ⟨[]⟩, [], []⟩
      = (some "rId3",
         ⟨[⟨"rId2", "T0", "G0", none⟩,
           ⟨"rId3", "http://schemas.openxmlformats.org/officeDocument/2006/relationships/image",
            "media/gone.png", none⟩], ⟨[]⟩, [], []⟩) ∧
    remapRelationship "rId6"
        [⟨"rId6", "http://schemas.openxmlformats.org/officeDocument/2006/relationships/customXml",
          "../customXml/item1.xml", none⟩] ⟨[]⟩
        ⟨[⟨"rId2", "T0", "G0", none⟩], ⟨[]⟩, [], []⟩
      = (some "rId3",
         ⟨[⟨"rId2", "T0", "G0", none⟩,
           ⟨"rId3", "http://schemas.openxmlformats.org/officeDocument/2006/relationships/customXml",
            "../customXml/item1.xml", none⟩], ⟨[]⟩, [], []⟩) := by
  constructor
  · exact (missing_payload_degrades "rId5"
      [⟨"rId5", "http://schemas.openxmlformats.org/officeDocument/2006/relationships/image",
        "media/gone.png", none⟩] ⟨[("word/other.bin", "x")]⟩
      ⟨[⟨"rId2", "T0", "G0", none⟩], ⟨[]⟩, [], []⟩
      ⟨"rId5", "http://schemas.openxmlformats.org/officeDocument/2006/relationships/image",
        "media/gone.png", none⟩
      (by decide) (by rfl) (by rfl) (by rfl)).1 (by rfl) (by rfl)
  · exact (missing_payload_degrades "rId6"
      [⟨"rId6", "http://schemas.openxmlformats.org/officeDocument/2006/relationships/customXml",
        "../customXml/item1.xml", none⟩] ⟨[]⟩
      ⟨[⟨"rId2", "T0", "G0", none⟩], ⟨[]⟩, [], []⟩
      ⟨"rId6", "http://schemas.openxmlformats.org/officeDocument/2006/relationships/customXml",
        "../customXml/item1.xml", none⟩
      (by decide) (by rfl) (by rfl) (by rfl)).2 (by rfl) (by rfl)
